import Mathlib

/-!
Verification of the kdevops helper scripts against their specification.

The Python sources are shallowly embedded over `List Char` (one `Char` per
Python character; the scripts only ever meet ASCII input, so the ASCII
subsets of Python's `\s` / `\d` classes are used).  Each regular expression
occurring in the sources is specialised to an equivalent executable Lean
function on `List Char`; subprocess and JSON-decoding boundaries (external
collaborators in the spec's sense) are passed in as explicit arguments.
-/

/-! ## Python-style character and string primitives -/

/-- ASCII subset of Python's `\s` character class (and of `str.isspace`). -/
def pyIsSpace (c : Char) : Bool :=
  c = ' ' || c = '\t' || c = '\n' || c = '\x0d' || c = '\x0b' || c = '\x0c'

/-- ASCII subset of Python's `\d` character class. -/
def pyIsDigit (c : Char) : Bool :=
  decide ('0' ≤ c) && decide (c ≤ '9')

/-- Numeric value of one ASCII digit. -/
def digitVal (c : Char) : Nat := c.toNat - 48

/-- Does the character list start with the given literal?  Mirrors both
Python `str.startswith` and a regex literal at the current position. -/
def pyStartsWith : List Char → List Char → Bool
  | _, [] => true
  | [], _ :: _ => false
  | c :: s, p :: ps => c = p && pyStartsWith s ps

/-- Drop a literal from the front (used for matching regex literals);
`none` when the literal is not a prefix. -/
def dropLit : List Char → List Char → Option (List Char)
  | s, [] => some s
  | [], _ :: _ => none
  | c :: s, p :: ps => if c = p then dropLit s ps else none

/-- Prepend a character to the first piece of a split (the split of a
nonempty suffix is never empty, so the `[]` case is unreachable). -/
def consPiece (c : Char) : List (List Char) → List (List Char)
  | [] => [[c]]
  | l :: ls => (c :: l) :: ls

/-- Python `content.split('\n')`: always at least one piece, one extra
piece per newline. -/
def pySplitNl : List Char → List (List Char)
  | [] => [[]]
  | c :: cs => if c = '\n' then [] :: pySplitNl cs else consPiece c (pySplitNl cs)

/-- Python `'\n'.join(lines)`. -/
def pyJoinNl : List (List Char) → List Char
  | [] => []
  | [l] => l
  | l :: ls => l ++ '\n' :: pyJoinNl ls

/-- Python `str.splitlines()` for `'\n'`-separated text: like
`split('\n')` but an empty string gives no lines and a trailing newline
does not yield a final empty piece. -/
def pySplitLines : List Char → List (List Char)
  | [] => []
  | '\n' :: rest => [] :: pySplitLines rest
  | c :: rest =>
    match pySplitLines rest with
    | [] => [[c]]
    | l :: ls => (c :: l) :: ls

/-- Leading-whitespace run (`takeWhile`). -/
def takeSpace (cs : List Char) : List Char := cs.takeWhile pyIsSpace

/-- Remainder after the leading-whitespace run (`dropWhile`). -/
def dropSpace (cs : List Char) : List Char := cs.dropWhile pyIsSpace

/-- Python `len(line) - len(line.lstrip())`: the indentation width. -/
def pyIndent (cs : List Char) : Nat := (takeSpace cs).length

/-- Python `bool(line.strip())`: is there any non-whitespace character? -/
def stripNonEmpty (cs : List Char) : Bool := cs.any (fun c => !(pyIsSpace c))

/-- Python `str.strip()`. -/
def pyStrip (cs : List Char) : List Char :=
  ((dropSpace cs).reverse.dropWhile pyIsSpace).reverse

/-- All characters are whitespace. -/
def allSpace (cs : List Char) : Bool := cs.all pyIsSpace

/-- Does `pat` occur as a contiguous substring (Python `pat in s`)? -/
def containsSub : List Char → List Char → Bool
  | s, pat => pyStartsWith s pat ||
      match s with
      | [] => false
      | _ :: rest => containsSub rest pat

/-- Python `str.split()` (split on whitespace runs, dropping empties). -/
def pyWordSplit : List Char → List (List Char)
  | [] => []
  | c :: rest =>
    if pyIsSpace c then pyWordSplit rest
    else
      match pyWordSplit rest with
      | [] => [[c]]
      | l :: ls =>
        match rest with
        | [] => [[c]]
        | r :: _ => if pyIsSpace r then [c] :: l :: ls else (c :: l) :: ls

/-- Split on a single separator character (Python `str.split(sep)` for a
one-character separator). -/
def pySplitOnChar (sep : Char) : List Char → List (List Char)
  | [] => [[]]
  | c :: cs =>
    match pySplitOnChar sep cs with
    | [] => [[]]
    | l :: ls => if c = sep then [] :: l :: ls else (c :: l) :: ls

/-- Head of the list fails `p` (vacuously for the empty list). -/
def headFails (p : Char → Bool) : List Char → Prop
  | [] => True
  | c :: _ => p c = false

/-- Is the head (when present) not a whitespace character? -/
def headOkB : List Char → Bool
  | [] => true
  | c :: _ => !pyIsSpace c

/-- No `[` immediately followed by whitespace (the bracket transform's
first pattern finds nothing). -/
def noBrSp : List Char → Bool
  | [] => true
  | c :: rest => (if c = '[' then headOkB rest else true) && noBrSp rest

/-- Is the head (when present) not a closing bracket? -/
def headNotClose : List Char → Bool
  | [] => true
  | c :: _ => !(c = ']')

/-- No whitespace immediately followed by `]` (the bracket transform's
second pattern finds nothing). -/
def noSpBr : List Char → Bool
  | [] => true
  | c :: rest => (!pyIsSpace c || headNotClose rest) && noSpBr rest

/-! ## JSON values (the shape `json.loads` hands back to the scripts) -/

/-- A decoded JSON value.  Numbers are modelled as integers: the telemetry
fields the scripts consume are integer counters, and claim C10 is stated
over integers. -/
inductive Json where
  | null : Json
  | bool (b : Bool) : Json
  | num (n : Int) : Json
  | str (s : String) : Json
  | arr (elems : List Json) : Json
  | obj (fields : List (String × Json)) : Json

/-- First value bound to a key (Python dicts have unique keys, so assoc
lists with first-match lookup model them exactly). -/
def Json.lookupKey (fields : List (String × Json)) (k : String) : Option Json :=
  match fields with
  | [] => none
  | (k', v) :: rest => if k' = k then some v else Json.lookupKey rest k

/-- Membership of a key in an object's field list (Python `k in d`). -/
def Json.hasKey (fields : List (String × Json)) (k : String) : Bool :=
  fields.any (fun f => f.1 = k)

/-- Python `h << 32` on an arbitrary-precision integer. -/
def pyShl32 (h : Int) : Int := h * (2 ^ 32)

/-! ## `plot_nvme_ocp_stats.py` : `combine_hi_lo` and the stats parser -/

/-- Embedding of `combine_hi_lo(value_dict)`:
`isinstance(value_dict, dict) and "hi" in value_dict and "lo" in value_dict`
selects the combining branch; there `(hi << 32) + lo` needs both values to
be numbers (anything else raises `TypeError`, modelled as `.error`).
Every other input is returned unchanged. -/
def combine_hi_lo : Json → Except Unit Json
  | .obj fields =>
    if Json.hasKey fields "hi" && Json.hasKey fields "lo" then
      match Json.lookupKey fields "hi", Json.lookupKey fields "lo" with
      | some (.num h), some (.num l) => .ok (.num (pyShl32 h + l))
      | _, _ => .error ()
    else .ok (.obj fields)
  | v => .ok v

/-- Python `"error" in lst` for a decoded JSON list: an element equals the
string `"error"` exactly when it decodes to that string. -/
def arrHasError (elems : List Json) : Bool :=
  elems.any (fun e => match e with | .str s => s = "error" | _ => false)

/-- Python `"error" in data` for a decoded JSON value: key membership for
dicts, substring test for strings, element membership for lists, and a
`TypeError` (modelled as `.error`) for numbers, booleans and `None`. -/
def pyInError : Json → Except Unit Bool
  | .obj fields => .ok (Json.hasKey fields "error")
  | .str s => .ok (containsSub s.data "error".data)
  | .arr elems => .ok (arrHasError elems)
  | _ => .error ()

/-- The field walk of the `data.items()` loop of
`parse_nvme_ocp_stats_file`: builds `processed_data` by applying
`combine_hi_lo` to every value. -/
def processFields : List (String × Json) → Except Unit (List (String × Json))
  | [] => .ok []
  | (k, v) :: rest =>
    match combine_hi_lo v with
    | .error _ => .error ()
    | .ok v' =>
      match processFields rest with
      | .error _ => .error ()
      | .ok rest' => .ok ((k, v') :: rest')

/-- `data.items()` loop of `parse_nvme_ocp_stats_file`: a non-dict raises
`AttributeError` on `.items()` (modelled as `.error`). -/
def processItems : Json → Except Unit (List (String × Json))
  | .obj fields => processFields fields
  | _ => .error ()

/-- One telemetry entry as produced by the `re.split` pairing in
`parse_nvme_ocp_stats_file`: the matched timestamp string together with
the `json.loads` outcome of the following block (`none` covers both an
empty block, which the source skips before parsing, and a
`json.JSONDecodeError`, which it catches and skips). -/
abbrev OcpEntry := String × Option Json

/-- Embedding of the entry loop of `parse_nvme_ocp_stats_file`: skips
unparseable blocks, skips entries whose value answers `"error" in data`
positively, propagates the uncaught `TypeError`/`AttributeError` raised on
non-dict values, and otherwise retains `(timestamp, processed_data)`. -/
def parse_nvme_ocp_stats : List OcpEntry → Except Unit (List String × List (List (String × Json)))
  | [] => .ok ([], [])
  | (ts, blk) :: rest =>
    match blk with
    | none => parse_nvme_ocp_stats rest
    | some j =>
      match pyInError j with
      | .error _ => .error ()
      | .ok true => parse_nvme_ocp_stats rest
      | .ok false =>
        match processItems j with
        | .error _ => .error ()
        | .ok d =>
          match parse_nvme_ocp_stats rest with
          | .error _ => .error ()
          | .ok (tss, ds) => .ok (ts :: tss, d :: ds)

/-- Written from the claim's words, for comparison with the code: keep
exactly the entries that parse and do not carry an `error` key, processing
retained objects field-by-field. -/
def specRetainedEntries (entries : List OcpEntry) : List (String × List (String × Json)) :=
  entries.filterMap (fun e =>
    match e.2 with
    | none => none
    | some j =>
      match j with
      | .obj fields =>
        if Json.hasKey fields "error" then none
        else
          match processFields fields with
          | .ok d => some (e.1, d)
          | .error _ => none
      | _ => none)

/-! ## `plot_nvme_smart_stats.py` : the SMART stats parser

Same `re.split` pairing and `"error" in data` test, but the loop first
validates the matched timestamp with
`datetime.strptime(timestamp_str, "%Y-%m-%d %H:%M:%S")` (its `ValueError`
is caught by the same `except` that catches `json.JSONDecodeError`), and
it retains `data` as decoded — there is no `.items()` walk and no
`combine_hi_lo`. -/

/-- Numeric value of two decimal digit characters. -/
def digit2 (a b : Char) : Nat := (a.toNat - 48) * 10 + (b.toNat - 48)

/-- Proleptic-Gregorian leap year, as `datetime` computes it. -/
def isLeapYear (y : Nat) : Bool :=
  (decide (y % 4 = 0) && !decide (y % 100 = 0)) || decide (y % 400 = 0)

/-- Length of month `m` of year `y` (`m` is range-checked before use). -/
def daysInMonth (y m : Nat) : Nat :=
  if m = 2 then (if isLeapYear y then 29 else 28)
  else if m = 4 || m = 6 || m = 9 || m = 11 then 30
  else 31

/-- Does `datetime.strptime(ts, "%Y-%m-%d %H:%M:%S")` succeed?  The loop
only ever feeds it a match of the splitting pattern
`\d{4}-\d{2}-\d{2} \d{2}:\d{2}:\d{2}`, so the embedding decides success on
exactly that shape: the format-level field ranges (month 01-12, day 01-31,
hour 00-23, minute 00-59), the constructor-level checks (second 00-59,
year at least 1), and the calendar check `day ≤ daysInMonth`. -/
def strptimeOk (ts : String) : Bool :=
  match ts.data with
  | [y1, y2, y3, y4, c1, o1, o2, c2, d1, d2, c3, h1, h2, c4, i1, i2, c5, s1, s2] =>
    [y1, y2, y3, y4, o1, o2, d1, d2, h1, h2, i1, i2, s1, s2].all pyIsDigit &&
    (c1 = '-') && (c2 = '-') && (c3 = ' ') && (c4 = ':') && (c5 = ':') &&
    (let y := digit2 y1 y2 * 100 + digit2 y3 y4
     let mo := digit2 o1 o2
     let d := digit2 d1 d2
     decide (1 ≤ y) && decide (1 ≤ mo) && decide (mo ≤ 12) &&
       decide (1 ≤ d) && decide (d ≤ daysInMonth y mo) &&
       decide (digit2 h1 h2 ≤ 23) && decide (digit2 i1 i2 ≤ 59) &&
       decide (digit2 s1 s2 ≤ 59))
  | _ => false

/-- Embedding of the entry loop of `parse_nvme_smart_stats_file`: skips
empty and undecodable blocks (a failed `strptime` and a failed
`json.loads` land in the same `except ... continue`, so a `none` block is
a skip whether or not the timestamp is valid), skips entries whose
timestamp `strptime` rejects before `"error" in data` can run, skips
entries answering the membership test positively, propagates the uncaught
`TypeError` on numbers, booleans and `None`, and otherwise retains the
timestamp with the decoded value as is. -/
def parse_nvme_smart_stats : List OcpEntry → Except Unit (List String × List Json)
  | [] => .ok ([], [])
  | (ts, blk) :: rest =>
    match blk with
    | none => parse_nvme_smart_stats rest
    | some j =>
      if strptimeOk ts then
        match pyInError j with
        | .error _ => .error ()
        | .ok true => parse_nvme_smart_stats rest
        | .ok false =>
          match parse_nvme_smart_stats rest with
          | .error _ => .error ()
          | .ok (tss, ds) => .ok (ts :: tss, j :: ds)
      else parse_nvme_smart_stats rest

/-- Written from the amended claim's words, for comparison with the code:
the SMART parser keeps exactly the entries that decode, carry a valid
timestamp, and do not contain an `error` member, unchanged and in
order. -/
def specSmartRetained (entries : List OcpEntry) : List (String × Json) :=
  entries.filterMap (fun e =>
    match e.2 with
    | none => none
    | some j =>
      if strptimeOk e.1 then
        match j with
        | .obj fields => if Json.hasKey fields "error" then none else some (e.1, j)
        | .str s => if containsSub s.data "error".data then none else some (e.1, j)
        | .arr elems =>
          if arrHasError elems then none else some (e.1, j)
        | _ => none
      else none)

/-- Is the block (when present) membership-testable — a dict, string or
list, on which `"error" in data` cannot raise? -/
def entrySmartOk : OcpEntry → Bool
  | (_, none) => true
  | (_, some j) =>
    match j with
    | .obj _ => true
    | .str _ => true
    | .arr _ => true
    | _ => false

/-! ## Change-scope filter (`get_changed_lines` / `should_fix_line`)

Identical code appears in `fix_ansible_lint.py` (`AnsibleFixer`) and in
`ansible-lint-comprehensive-fixer.py` (`ChangeFilter`); one embedding
serves both.  The `git diff` subprocess is an external collaborator and is
passed in as `Except Unit String` (`.error` models
`subprocess.CalledProcessError` under `check=True`). -/

/-- `\d+` at the front: one or more digits, greedy, returning the parsed
value and the rest. -/
def parseDigits (cs : List Char) : Option (Nat × List Char) :=
  let ds := cs.takeWhile pyIsDigit
  if ds.isEmpty then none
  else some (ds.foldl (fun n c => 10 * n + digitVal c) 0, cs.dropWhile pyIsDigit)

/-- `(?:,(\d+))?`: the optional group is taken exactly when a comma is
followed by a digit (otherwise the regex engine drops the group). -/
def parseOptCommaDigits (cs : List Char) : Option Nat × List Char :=
  match cs with
  | ',' :: rest =>
    match rest with
    | d :: _ =>
      if pyIsDigit d then
        match parseDigits rest with
        | some (n, r) => (some n, r)
        | none => (none, cs)
      else (none, cs)
    | [] => (none, cs)
  | _ => (none, cs)

/-- `re.match(r'@@ -\d+(?:,\d+)? \+(\d+)(?:,(\d+))? @@', line)`: the
captured new-side start and optional count. -/
def parseHunkHeader (l : List Char) : Option (Nat × Option Nat) :=
  (dropLit l "@@ -".data).bind fun r0 =>
  (parseDigits r0).bind fun p1 =>
  (dropLit (parseOptCommaDigits p1.2).2 " +".data).bind fun r3 =>
  (parseDigits r3).bind fun p4 =>
  if pyStartsWith (parseOptCommaDigits p4.2).2 " @@".data then
    some (p4.1, (parseOptCommaDigits p4.2).1)
  else none

/-- Lines added by one parsed hunk header:
`range(start, start + count)` with `count` defaulting to `1`. -/
def hunkRange (p : Nat × Option Nat) : Finset ℕ :=
  Finset.Ico p.1 (p.1 + p.2.getD 1)

/-- The loop `for line in result.stdout.split('\n')` of
`get_changed_lines`. -/
def changedFromLines (lines : List (List Char)) : Finset ℕ :=
  lines.foldl (fun acc l =>
    if pyStartsWith l "@@".data then
      match parseHunkHeader l with
      | some p => acc ∪ hunkRange p
      | none => acc
    else acc) ∅

/-- The contribution of one diff-output line to the changed-line set. -/
def hunkLineSet (l : List Char) : Finset ℕ :=
  if pyStartsWith l "@@".data then
    match parseHunkHeader l with
    | some p => hunkRange p
    | none => ∅
  else ∅

/-- `get_changed_lines` for a single file: on
`subprocess.CalledProcessError` the source returns
`set(range(1, 100000))`; otherwise it parses the diff output. -/
def get_changed_lines (diff : Except Unit String) : Finset ℕ :=
  match diff with
  | .error _ => Finset.Ico 1 100000
  | .ok stdout => changedFromLines (pySplitNl stdout.data)

/-- `should_fix_line` of `AnsibleFixer`: every line is eligible unless
change-scoped mode is active, in which case membership in the changed-line
set decides. -/
def should_fix_line (fixOnlyChanges : Bool) (diff : Except Unit String) (n : ℕ) : Bool :=
  if !fixOnlyChanges then true else decide (n ∈ get_changed_lines diff)

/-- One line of `git diff` output, structured: either a well-formed hunk
header (numbers kept as digit strings, counts optional, arbitrary trailing
text after the closing `@@`) or any other line. -/
inductive DiffLine where
  | hunk (a : List Char) (b : Option (List Char)) (c : List Char)
      (d : Option (List Char)) (trail : List Char) : DiffLine
  | other (s : List Char) : DiffLine

/-- Render an optional `,count` part. -/
def optComma : Option (List Char) → List Char
  | none => []
  | some x => ',' :: x

/-- The concrete text of a structured diff line. -/
def DiffLine.render : DiffLine → List Char
  | .hunk a b c d trail =>
      "@@ -".data ++ a ++ optComma b ++ " +".data ++ c ++ optComma d ++ " @@".data ++ trail
  | .other s => s

/-- A nonempty all-digits string. -/
def digitsOk (x : List Char) : Bool := !x.isEmpty && x.all pyIsDigit

/-- Optional digit-string well-formedness. -/
def optDigitsOk : Option (List Char) → Bool
  | none => true
  | some x => digitsOk x

/-- Well-formedness of a structured diff line: hunk headers carry genuine
decimal numbers, and non-header lines do not begin with `@@`. -/
def DiffLine.okB : DiffLine → Bool
  | .hunk a b c d _ => digitsOk a && optDigitsOk b && digitsOk c && optDigitsOk d
  | .other s => !pyStartsWith s "@@".data

/-- Decimal value of a digit string. -/
def digitsVal (x : List Char) : Nat := x.foldl (fun n c => 10 * n + digitVal c) 0

/-- Written from the claim's words: the line-number set contributed by one
diff line — `{c, c+1, ..., c+d-1}` for a hunk header, the singleton `{c}`
when the count is omitted, nothing for any other line. -/
def DiffLine.claimSet : DiffLine → Finset ℕ
  | .hunk _ _ c d _ =>
    match d with
    | some dc => Finset.Ico (digitsVal c) (digitsVal c + digitsVal dc)
    | none => {digitsVal c}
  | .other _ => ∅

/-! ## Hand-written text transforms (`AnsibleFixer` / `ManualFixProcessor`)

The two scripts carry character-for-character identical transform bodies;
one embedding serves both.  `eligible i` stands for
`self.should_fix_line(file_path, i)` — the claims instantiate it with the
inactive filter `fun _ => true`. -/

/-- Apply `f` to line `i` (0-based) exactly when `eligible (i+1)` holds,
mirroring the per-line loops `if not self.should_fix_line(file_path, i+1):
continue`. -/
def mapIdxLines (eligible : Nat → Bool) (f : List Char → List Char) :
    Nat → List (List Char) → List (List Char)
  | _, [] => []
  | i, l :: ls => (if eligible (i + 1) then f l else l) :: mapIdxLines eligible f (i + 1) ls

/-! ### `fix_yaml_brackets` -/

/-- `re.sub(r'\[\s+', '[', line)`: after emitting `[` the following
whitespace run is discarded (the `Bool` records being inside that run). -/
def bSub1Go : Bool → List Char → List Char
  | _, [] => []
  | skipping, c :: rest =>
    if skipping && pyIsSpace c then bSub1Go true rest
    else if c = '[' then '[' :: bSub1Go true rest
    else c :: bSub1Go false rest

/-- `re.sub(r'\s+\]', ']', line)`: whitespace is buffered in `pend`; a
closing bracket discards the buffer, any other character flushes it. -/
def bSub2Go (pend : List Char) : List Char → List Char
  | [] => pend
  | c :: rest =>
    if pyIsSpace c then bSub2Go (pend ++ [c]) rest
    else if c = ']' then ']' :: bSub2Go [] rest
    else pend ++ c :: bSub2Go [] rest

/-- One line of `fix_yaml_brackets`. -/
def bracketLine (l : List Char) : List Char := bSub2Go [] (bSub1Go false l)

/-- `AnsibleFixer.fix_yaml_brackets`. -/
def fix_yaml_brackets (eligible : Nat → Bool) (content : String) : String :=
  String.mk (pyJoinNl (mapIdxLines eligible bracketLine 0 (pySplitNl content.data)))

/-! ### `fix_yaml_truthy` -/

/-- Does `cs` match `\s+LIT\s*$` (the tail of `:\s+LIT\s*$` after the
colon)?  The whitespace run is greedy and `LIT` starts with a
non-whitespace character, so the match is deterministic. -/
def truthyTail (lit : List Char) (cs : List Char) : Bool :=
  !(takeSpace cs).isEmpty &&
    (match dropLit (dropSpace cs) lit with
     | some rest => allSpace rest
     | none => false)

/-- `re.sub(r':\s+LIT\s*$', REP, line)`: anchored at the end of the line,
so at most one (the leftmost viable) colon is replaced and everything from
it onwards becomes `REP`. -/
def truthySub (lit rep : List Char) : List Char → List Char
  | [] => []
  | c :: rest =>
    if c = ':' && truthyTail lit rest then rep
    else c :: truthySub lit rep rest

/-- Does any colon of the line carry a matching tail? -/
def truthyMatches (lit : List Char) : List Char → Bool
  | [] => false
  | c :: rest => (c = ':' && truthyTail lit rest) || truthyMatches lit rest

/-- The eight substitutions of `fix_yaml_truthy`, in source order. -/
def truthyPairs : List (List Char × List Char) :=
  [("yes".data, ": true".data), ("no".data, ": false".data),
   ("Yes".data, ": true".data), ("No".data, ": false".data),
   ("YES".data, ": true".data), ("NO".data, ": false".data),
   ("on".data, ": true".data), ("off".data, ": false".data)]

/-- One line of `fix_yaml_truthy`: the eight substitutions chained. -/
def truthyLine (l : List Char) : List Char :=
  truthyPairs.foldl (fun cur p => truthySub p.1 p.2 cur) l

/-- `AnsibleFixer.fix_yaml_truthy`. -/
def fix_yaml_truthy (eligible : Nat → Bool) (content : String) : String :=
  String.mk (pyJoinNl (mapIdxLines eligible truthyLine 0 (pySplitNl content.data)))

/-! ### `fix_jinja_spacing` -/

/-- Left and right curly braces (kept out of string literals). -/
def lbrace : Char := Char.ofNat 123

/-- Right curly brace. -/
def rbrace : Char := Char.ofNat 125

/-- `re.sub(r'([^|\s])\|([^|\s])', r'\1 | \2', expr)`: scanning left to
right over non-overlapping three-character matches. -/
def jinjaSub1 : List Char → List Char
  | a :: '|' :: b :: rest =>
    if !(a = '|' || pyIsSpace a) && !(b = '|' || pyIsSpace b) then
      a :: ' ' :: '|' :: ' ' :: b :: jinjaSub1 rest
    else a :: jinjaSub1 ('|' :: b :: rest)
  | c :: rest => c :: jinjaSub1 rest
  | [] => []

/-- `re.sub(r'\s+\|\s+', ' | ', expr)`, fuelled (each step consumes at
least one character, so `length + 1` fuel suffices). -/
def jinjaSub2F : Nat → List Char → List Char
  | 0, cs => cs
  | _ + 1, [] => []
  | fuel + 1, c :: rest =>
    if pyIsSpace c then
      match dropSpace (c :: rest) with
      | '|' :: r2 =>
        if !(takeSpace r2).isEmpty then
          ' ' :: '|' :: ' ' :: jinjaSub2F fuel (dropSpace r2)
        else takeSpace (c :: rest) ++ '|' :: jinjaSub2F fuel r2
      | r => takeSpace (c :: rest) ++ jinjaSub2F fuel r
    else c :: jinjaSub2F fuel rest

/-- `re.sub(r'\s+\|\s+', ' | ', expr)`. -/
def jinjaSub2 (cs : List Char) : List Char := jinjaSub2F (cs.length + 1) cs

/-- The replacement function `fix_jinja_expr` applied to the lazy group. -/
def fixJinjaExpr (grp : List Char) : List Char := jinjaSub2 (jinjaSub1 grp)

/-- Lazy search for the nearest closing brace pair `\x7d\x7d` (the group
built so far is kept reversed in `accRev`). -/
def lazyCloseGo (accRev : List Char) : List Char → Option (List Char × List Char)
  | [] => none
  | x :: xs =>
    match xs with
    | y :: ys =>
      if x = rbrace && y = rbrace then some (accRev.reverse, ys)
      else lazyCloseGo (x :: accRev) xs
    | [] => none

/-- The lazy `(.+?)\x7d\x7d` part: at least one group character, then the
earliest `\x7d\x7d`. -/
def findLazyClose : List Char → Option (List Char × List Char)
  | [] => none
  | c :: rest => lazyCloseGo [c] rest

/-- `re.sub(r'\x7b\x7b(.+?)\x7d\x7d', fix_jinja_expr, line)`, fuelled. -/
def jinjaOuterF : Nat → List Char → List Char
  | 0, cs => cs
  | _ + 1, [] => []
  | fuel + 1, c :: rest =>
    if c = lbrace then
      match rest with
      | c2 :: rest2 =>
        if c2 = lbrace then
          match findLazyClose rest2 with
          | some (grp, after) =>
            lbrace :: lbrace :: (fixJinjaExpr grp ++ rbrace :: rbrace :: jinjaOuterF fuel after)
          | none => c :: jinjaOuterF fuel rest
        else c :: jinjaOuterF fuel rest
      | [] => [c]
    else c :: jinjaOuterF fuel rest

/-- `re.match(r'\s*(when|changed_when|failed_when):', line)`. -/
def isWhenLine (l : List Char) : Bool :=
  let r := dropSpace l
  pyStartsWith r "when:".data || pyStartsWith r "changed_when:".data ||
    pyStartsWith r "failed_when:".data

/-- Python `line.split(':', 1)` when a colon exists. -/
def pySplitFirstColon : List Char → Option (List Char × List Char)
  | [] => none
  | c :: rest =>
    if c = ':' then some ([], rest)
    else
      match pySplitFirstColon rest with
      | some (a, b) => some (c :: a, b)
      | none => none

/-- One line of `fix_jinja_spacing`: the double-brace substitution, then —
for `when:`-style lines containing a colon — the whole result is replaced
by the original line's head plus the re-spaced remainder. -/
def jinjaLine (l : List Char) : List Char :=
  let braced := jinjaOuterF (l.length + 1) l
  if isWhenLine l then
    match pySplitFirstColon l with
    | some (before, after) => before ++ ':' :: jinjaSub2 (jinjaSub1 after)
    | none => braced
  else braced

/-- `AnsibleFixer.fix_jinja_spacing`. -/
def fix_jinja_spacing (eligible : Nat → Bool) (content : String) : String :=
  String.mk (pyJoinNl (mapIdxLines eligible jinjaLine 0 (pySplitNl content.data)))

/-! ### `fix_fqcn` -/

/-- `AnsibleFixer.FQCN_MAP` (also `ManualFixProcessor.FQCN_MAP`), verbatim. -/
def FQCN_MAP : List (String × String) :=
  [("apt", "ansible.builtin.apt"),
   ("apt_key", "ansible.builtin.apt_key"),
   ("apt_repository", "ansible.builtin.apt_repository"),
   ("assemble", "ansible.builtin.assemble"),
   ("assert", "ansible.builtin.assert"),
   ("async_status", "ansible.builtin.async_status"),
   ("blockinfile", "ansible.builtin.blockinfile"),
   ("command", "ansible.builtin.command"),
   ("copy", "ansible.builtin.copy"),
   ("debug", "ansible.builtin.debug"),
   ("dnf", "ansible.builtin.dnf"),
   ("fail", "ansible.builtin.fail"),
   ("fetch", "ansible.builtin.fetch"),
   ("file", "ansible.builtin.file"),
   ("find", "ansible.builtin.find"),
   ("get_url", "ansible.builtin.get_url"),
   ("git", "ansible.builtin.git"),
   ("group", "ansible.builtin.group"),
   ("hostname", "ansible.builtin.hostname"),
   ("import_playbook", "ansible.builtin.import_playbook"),
   ("import_role", "ansible.builtin.import_role"),
   ("import_tasks", "ansible.builtin.import_tasks"),
   ("include", "ansible.builtin.include"),
   ("include_role", "ansible.builtin.include_role"),
   ("include_tasks", "ansible.builtin.include_tasks"),
   ("include_vars", "ansible.builtin.include_vars"),
   ("lineinfile", "ansible.builtin.lineinfile"),
   ("meta", "ansible.builtin.meta"),
   ("package", "ansible.builtin.package"),
   ("pause", "ansible.builtin.pause"),
   ("ping", "ansible.builtin.ping"),
   ("pip", "ansible.builtin.pip"),
   ("raw", "ansible.builtin.raw"),
   ("reboot", "ansible.builtin.reboot"),
   ("replace", "ansible.builtin.replace"),
   ("rpm_key", "ansible.builtin.rpm_key"),
   ("script", "ansible.builtin.script"),
   ("service", "ansible.builtin.service"),
   ("service_facts", "ansible.builtin.service_facts"),
   ("set_fact", "ansible.builtin.set_fact"),
   ("setup", "ansible.builtin.setup"),
   ("shell", "ansible.builtin.shell"),
   ("slurp", "ansible.builtin.slurp"),
   ("stat", "ansible.builtin.stat"),
   ("systemd", "ansible.builtin.systemd"),
   ("sysctl", "ansible.builtin.sysctl"),
   ("template", "ansible.builtin.template"),
   ("unarchive", "ansible.builtin.unarchive"),
   ("uri", "ansible.builtin.uri"),
   ("user", "ansible.builtin.user"),
   ("wait_for", "ansible.builtin.wait_for"),
   ("wait_for_connection", "ansible.builtin.wait_for_connection"),
   ("yum", "ansible.builtin.yum"),
   ("yum_repository", "ansible.builtin.yum_repository"),
   ("docker_compose", "community.docker.docker_compose"),
   ("docker_container", "community.docker.docker_container"),
   ("docker_image", "community.docker.docker_image"),
   ("docker_network", "community.docker.docker_network"),
   ("docker_volume", "community.docker.docker_volume"),
   ("synchronize", "ansible.posix.synchronize"),
   ("mount", "ansible.posix.mount"),
   ("seboolean", "ansible.posix.seboolean"),
   ("selinux", "ansible.posix.selinux")]

/-- `module in self.FQCN_MAP` / `self.FQCN_MAP[module]`. -/
def lookupFqcn (m : List Char) : Option String :=
  FQCN_MAP.lookup (String.mk m)

/-- The `[a-z_]` character class. -/
def isModChar (c : Char) : Bool :=
  (decide ('a' ≤ c) && decide (c ≤ 'z')) || decide (c = '_')

/-- `re.match(r'^(\s*-?\s*)([a-z_]+)(\s*:.*)', line)`, returning the three
groups.  (The source's second pattern `^(\s*)([a-z_]+)(\s*:.*)` is tried
only when this one fails, and everything it accepts this one accepts too,
so it never fires.) -/
def moduleParse (l : List Char) : Option (List Char × List Char × List Char) :=
  let ws1 := takeSpace l
  let r1 := dropSpace l
  let dr : List Char × List Char :=
    match r1 with
    | c :: t => if c = '-' then ([c], t) else ([], r1)
    | [] => ([], r1)
  let ws2 := takeSpace dr.2
  let r3 := dropSpace dr.2
  let m := r3.takeWhile isModChar
  let r4 := r3.dropWhile isModChar
  if m.isEmpty then none
  else
    let ws3 := takeSpace r4
    let r5 := dropSpace r4
    match r5 with
    | ':' :: _ => some (ws1 ++ dr.1 ++ ws2, m, ws3 ++ r5)
    | _ => none

/-- `re.match(r'\s*-\s+name:', line)`. -/
def isTaskName (l : List Char) : Bool :=
  match dropSpace l with
  | c :: t =>
    c = '-' && !(takeSpace t).isEmpty && pyStartsWith (dropSpace t) "name:".data
  | [] => false

/-- `re.match(r'\s*-\s+(name|hosts):', line)`. -/
def isTaskOrPlay (l : List Char) : Bool :=
  match dropSpace l with
  | c :: t =>
    c = '-' && !(takeSpace t).isEmpty &&
      (pyStartsWith (dropSpace t) "name:".data || pyStartsWith (dropSpace t) "hosts:".data)
  | [] => false

/-- The rewrite attempted on a line while inside a task: module-pattern
match plus table lookup, producing `indent + FQCN_MAP[module] + rest`. -/
def fqcnRewrite (l : List Char) : Option (List Char) :=
  match moduleParse l with
  | some (ind, m, rest) =>
    match lookupFqcn m with
    | some f => some (ind ++ f.data ++ rest)
    | none => none
  | none => none

/-- The line loop of `fix_fqcn`: `inTask` is the `in_task` flag.  A
task-name line re-opens a block and is emitted unchanged (`continue`); out
of a task, lines pass through; an ineligible line is skipped wholesale
(`continue` fires before the rewrite and before the reset check); after a
successful rewrite `in_task` drops to `False`; finally the reset pattern
(only `- hosts:` lines can reach it, name lines having continued) closes
the block. -/
def fqcnGo (eligible : Nat → Bool) : Bool → Nat → List (List Char) → List (List Char)
  | _, _, [] => []
  | inTask, i, l :: rest =>
    if isTaskName l then l :: fqcnGo eligible true (i + 1) rest
    else if !inTask then l :: fqcnGo eligible false (i + 1) rest
    else if !eligible (i + 1) then l :: fqcnGo eligible inTask (i + 1) rest
    else
      match fqcnRewrite l with
      | some l' =>
        l' :: fqcnGo eligible (if isTaskOrPlay l then isTaskName l else false) (i + 1) rest
      | none =>
        l :: fqcnGo eligible (if isTaskOrPlay l then isTaskName l else inTask) (i + 1) rest

/-- `AnsibleFixer.fix_fqcn`. -/
def fix_fqcn (eligible : Nat → Bool) (content : String) : String :=
  String.mk (pyJoinNl (fqcnGo eligible false 0 (pySplitNl content.data)))

/-- Between positions `k` and `j` (exclusive) every line passes through
unchanged, is no task/play marker, and is not rewritable. -/
def fqcnUntouched (ls out : List (List Char)) (k j : Nat) : Prop :=
  ∀ m ml om, k < m → m < j → ls[m]? = some ml → out[m]? = some om →
    om = ml ∧ isTaskOrPlay ml = false ∧ fqcnRewrite ml = none

/-- Position `j` is governed by a task opener: some strictly earlier
`- name:` line `k` with nothing between `k` and `j` that closes the block,
gets rewritten, or is itself rewritable. -/
def fqcnGoverned (ls out : List (List Char)) (j : Nat) : Prop :=
  ∃ k kl, k < j ∧ ls[k]? = some kl ∧ isTaskName kl = true ∧ fqcnUntouched ls out k j

/-- Every line strictly before `j` passes through unchanged, is no
task/play marker, and is not rewritable. -/
def fqcnCleanPrefix (ls out : List (List Char)) (j : Nat) : Prop :=
  ∀ m ml om, m < j → ls[m]? = some ml → out[m]? = some om →
    om = ml ∧ isTaskOrPlay ml = false ∧ fqcnRewrite ml = none

/-! ### `fix_ignore_errors`

Embedded in the inactive-filter mode (`should_fix_line` constantly true),
which is the mode every claim about it concerns. -/

/-- `re.match(r'\s*ignore_errors:\s*(yes|true|True)', line)`. -/
def igTrigger (l : List Char) : Bool :=
  match dropLit (dropSpace l) "ignore_errors:".data with
  | some r =>
    let r2 := dropSpace r
    pyStartsWith r2 "yes".data || pyStartsWith r2 "true".data ||
      pyStartsWith r2 "True".data
  | none => false

/-- `re.match(r'\s*failed_when:', line)`. -/
def isFWLine (l : List Char) : Bool :=
  pyStartsWith (dropSpace l) "failed_when:".data

/-- The look-ahead break: a non-blank line at strictly smaller
indentation. -/
def igBreak (ind : Nat) (l : List Char) : Bool :=
  decide (pyIndent l < ind) && stripNonEmpty l

/-- The look-ahead `for j in range(i+1, min(i+10, len(lines)))`: at most
nine following lines, stopping at a break line, searching for
`failed_when:`. -/
def scanFW (ind : Nat) : Nat → List (List Char) → Bool
  | 0, _ => false
  | _, [] => false
  | fuel + 1, l :: rest =>
    if igBreak ind l then false
    else if isFWLine l then true
    else scanFW ind fuel rest

/-- Python `s.replace(pat, rep)` for a nonempty `pat`, fuelled (each step
consumes at least one character). -/
def pyReplaceAllF (pat rep : List Char) : Nat → List Char → List Char
  | 0, cs => cs
  | _ + 1, [] => []
  | fuel + 1, c :: rest =>
    if pyStartsWith (c :: rest) pat then
      rep ++ pyReplaceAllF pat rep fuel ((c :: rest).drop pat.length)
    else c :: pyReplaceAllF pat rep fuel rest

/-- Python `s.replace(pat, rep)` for a nonempty `pat`. -/
def pyReplaceAll (pat rep cs : List Char) : List Char :=
  pyReplaceAllF pat rep (cs.length + 1) cs

/-- `line.replace('ignore_errors:', '# TODO: Review - was ignore_errors:')`. -/
def igConvLine (l : List Char) : List Char :=
  pyReplaceAll "ignore_errors:".data "# TODO: Review - was ignore_errors:".data l

/-- The inserted line `' ' * indent + 'failed_when: false  # Always
succeed - review this condition'`. -/
def igFwLine (ind : Nat) : List Char :=
  List.replicate ind ' ' ++ "failed_when: false  # Always succeed - review this condition".data

/-- The `while` loop of `fix_ignore_errors`: on conversion the index jumps
past both the rewritten line and the inserted one, so the loop is exactly
this recursion. -/
def igGo : List (List Char) → List (List Char)
  | [] => []
  | l :: rest =>
    if igTrigger l then
      if scanFW (pyIndent l) 9 rest then l :: igGo rest
      else igConvLine l :: igFwLine (pyIndent l) :: igGo rest
    else l :: igGo rest

/-- `AnsibleFixer.fix_ignore_errors` with the filter inactive. -/
def fix_ignore_errors (content : String) : String :=
  String.mk (pyJoinNl (igGo (pySplitNl content.data)))

/-! ### `fix_role_path` -/

/-- Single-quote character (kept out of string literals). -/
def squote : Char := Char.ofNat 39

/-- Double-quote character. -/
def dquote : Char := Char.ofNat 34

/-- Match at the current position for the two `fix_role_path` patterns:
`(role:|name:)\s*["']?\.\./roles/([^"'\s]+)` when `quoted`, and
`(role:|name:)\s*\.\./roles/([^\s]+)` otherwise.  Returns the replacement
`\1 \2` and the rest after the match. -/
def rpMatchAt (quoted : Bool) (cs : List Char) : Option (List Char × List Char) :=
  let g1r : Option (List Char × List Char) :=
    match dropLit cs "role:".data with
    | some r => some ("role:".data, r)
    | none =>
      match dropLit cs "name:".data with
      | some r => some ("name:".data, r)
      | none => none
  match g1r with
  | none => none
  | some (g1, r1) =>
    let r2 := dropSpace r1
    let r3 :=
      match r2 with
      | c :: t => if quoted && (c = dquote || c = squote) then t else r2
      | [] => r2
    match dropLit r3 "../roles/".data with
    | none => none
    | some r4 =>
      let keep : Char → Bool := fun c =>
        !(pyIsSpace c) && (!quoted || (!(c = dquote) && !(c = squote)))
      let g2 := r4.takeWhile keep
      if g2.isEmpty then none
      else some (g1 ++ ' ' :: g2, r4.drop g2.length)

/-- Scanning `re.sub` for one `fix_role_path` pattern, fuelled. -/
def rpSubF (quoted : Bool) : Nat → List Char → List Char
  | 0, cs => cs
  | _ + 1, [] => []
  | fuel + 1, c :: rest =>
    match rpMatchAt quoted (c :: rest) with
    | some (out, after) => out ++ rpSubF quoted fuel after
    | none => c :: rpSubF quoted fuel rest

/-- One `fix_role_path` substitution pass. -/
def rpSub (quoted : Bool) (cs : List Char) : List Char :=
  rpSubF quoted (cs.length + 1) cs

/-- One line of `fix_role_path`: gated on `'role:' in line or 'name:' in
line`, then the quoted pattern followed by the unquoted one. -/
def rolePathLine (l : List Char) : List Char :=
  if containsSub l "role:".data || containsSub l "name:".data then
    rpSub false (rpSub true l)
  else l

/-- `AnsibleFixer.fix_role_path`. -/
def fix_role_path (eligible : Nat → Bool) (content : String) : String :=
  String.mk (pyJoinNl (mapIdxLines eligible rolePathLine 0 (pySplitNl content.data)))

/-! ## Rule catalog (`get_fixable_rules`)

The same fallback chain appears in `ansible-lint-fix-rules.py` and in
`ansible-lint-comprehensive-fixer.py` (there wrapped in `RuleInfo`
records); the rule-identifier lists coincide, so one embedding serves
both.  The two subprocess invocations and `json.loads` are external:
their outcomes are the arguments. -/

/-- One element of the decoded JSON rule listing: `rule.get("tags", [])`
never fails, `rule["id"]` raises `KeyError` when absent (`id := none`). -/
structure JRule where
  id : Option String
  tags : List String

/-- Outcome of the JSON listing attempt: subprocess failure, a
`json.JSONDecodeError`, or a decoded rule array. -/
inductive JsonOutcome where
  | procFail : JsonOutcome
  | decodeFail : JsonOutcome
  | ok (rules : List JRule) : JsonOutcome

/-- Outcome of the text listing subprocess. -/
inductive TextOutcome where
  | procFail : TextOutcome
  | ok (stdout : String) : TextOutcome

/-- The JSON loop: collect ids of `autofix`-tagged rules, raising
`KeyError` (modelled as `.error`) on a tagged rule without an `id`. -/
def jsonFixable : List JRule → Except Unit (List String)
  | [] => .ok []
  | r :: rs =>
    if r.tags.contains "autofix" then
      match r.id with
      | none => .error ()
      | some i =>
        match jsonFixable rs with
        | .ok l => .ok (i :: l)
        | .error e => .error e
    else jsonFixable rs

/-- `re.sub(r'\x1b\[[0-9;]*m', '', line)`, fuelled. -/
def ansiStripF : Nat → List Char → List Char
  | 0, cs => cs
  | _ + 1, [] => []
  | fuel + 1, c :: rest =>
    if c = '\x1b' then
      match rest with
      | c2 :: r2 =>
        if c2 = '[' then
          match r2.dropWhile (fun x => pyIsDigit x || x = ';') with
          | m :: r4 =>
            if m = 'm' then ansiStripF fuel r4 else c :: ansiStripF fuel rest
          | [] => c :: ansiStripF fuel rest
        else c :: ansiStripF fuel rest
      | [] => [c]
    else c :: ansiStripF fuel rest

/-- ANSI escape-sequence removal. -/
def ansiStrip (cs : List Char) : List Char := ansiStripF (cs.length + 1) cs

/-- Python `s.split(sep)` for a nonempty multi-character separator,
fuelled. -/
def pySplitOnSubF (sep : List Char) : Nat → List Char → List (List Char)
  | 0, cs => [cs]
  | _ + 1, [] => [[]]
  | fuel + 1, c :: rest =>
    if pyStartsWith (c :: rest) sep then
      [] :: pySplitOnSubF sep fuel ((c :: rest).drop sep.length)
    else
      match pySplitOnSubF sep fuel rest with
      | [] => [[c]]
      | l :: ls => (c :: l) :: ls

/-- Python `s.split(sep)`. -/
def pySplitOnSub (sep cs : List Char) : List (List Char) :=
  pySplitOnSubF sep (cs.length + 1) cs

/-- The text-listing parse loop: a bullet line `- rule ...` contributes
its first token when the *following* line (stripped) starts with `tags:`
and the comma-separated first token after `tags:` contains `autofix`.
`clean_line.strip()[2:].split()[0]` and `...split("tags:")[1].split()[0]`
raise `IndexError` (modelled as `.error`) on empty splits. -/
def textRulesGo : List (List Char) → Except Unit (List String)
  | [] => .ok []
  | l :: rest =>
    let contrib : Except Unit (Option String) :=
      if stripNonEmpty l && pyStartsWith l "- ".data then
        match pyWordSplit ((pyStrip (ansiStrip l)).drop 2) with
        | [] => .error ()
        | ruleName :: _ =>
          match rest with
          | [] => .ok none
          | next :: _ =>
            let nstr := pyStrip next
            if pyStartsWith nstr "tags:".data then
              match pyWordSplit ((pySplitOnSub "tags:".data nstr).getD 1 []) with
              | [] => .error ()
              | tagsPart :: _ =>
                let tags := (pySplitOnChar ',' tagsPart).map pyStrip
                if tags.any (fun t => t == "autofix".data) then
                  .ok (some (String.mk ruleName))
                else .ok none
            else .ok none
      else .ok none
    match contrib with
    | .error e => .error e
    | .ok o =>
      match textRulesGo rest with
      | .error e => .error e
      | .ok ls => .ok (match o with | some r => r :: ls | none => ls)

/-- The hard-coded final fallback list. -/
def knownFixableRules : List String :=
  ["command-instead-of-shell", "deprecated-local-action", "fqcn", "jinja",
   "key-order", "name", "no-free-form", "no-jinja-when", "no-log-password",
   "partial-become", "yaml"]

/-- `get_fixable_rules`: JSON path first (any of subprocess failure,
decode failure, `KeyError`, or an *empty* harvest falls through), then the
text path, whose own subprocess failure — and only that — selects the
hard-coded list; an `IndexError` inside the text parse propagates
(modelled as `.error`). -/
def get_fixable_rules (jsonO : JsonOutcome) (textO : TextOutcome) :
    Except Unit (List String) :=
  let fromJson : Option (List String) :=
    match jsonO with
    | .ok rules =>
      match jsonFixable rules with
      | .ok l => if l.isEmpty then none else some l
      | .error _ => none
    | _ => none
  match fromJson with
  | some l => .ok l
  | none =>
    match textO with
    | .procFail => .ok knownFixableRules
    | .ok stdout => textRulesGo (pySplitNl stdout.data)

/-! ## Fix-executor staging (`create_commit` / `_process_single_rule`)

The version-control binary is external; its working-tree view is the
state.  `git diff --name-only` reports unstaged modifications of tracked
files; `git add .` also picks up untracked files. -/

/-- Working-tree state as the version-control tool reports it. -/
structure GitState where
  modified : List String
  untracked : List String

/-- `git diff --name-only` (`GitManager.get_changed_files` /
`has_changes`). -/
def gitDiffNameOnly (s : GitState) : List String := s.modified

/-- Files staged by `git add .` (the staging step of
`AnsibleLintFixer.create_commit` in `ansible-lint-fix-rules.py`). -/
def createCommitStaged (s : GitState) : List String := s.modified ++ s.untracked

/-- Files staged by `GitManager.add_files(files)` (one `git add file` per
listed file). -/
def addFilesStaged (files : List String) : List String := files

/-- The staging outcome of `_process_single_rule` in the comprehensive
fixer: nothing without working-tree changes or without confirmation;
otherwise exactly the files `git diff --name-only` reported. -/
def processSingleRuleStaged (s : GitState) (confirm : Bool) : List String :=
  if (gitDiffNameOnly s).isEmpty then []
  else if confirm then addFilesStaged (gitDiffNameOnly s) else []

/-! ## Reference-list generator (`generate_refs.py`) -/

/-- The loop of `gitref_getreflist`: skip lines containing `^\x7b\x7d`,
stop once the requested count is reached, otherwise keep the last
`/`-separated component. -/
def gitrefGo (maxRefs : Nat) : Nat → List (List Char) → List (List Char)
  | _, [] => []
  | n, l :: rest =>
    if containsSub l "^\x7b\x7d".data then gitrefGo maxRefs n rest
    else if maxRefs ≤ n then []
    else ((pySplitOnChar '/' l).getLastD []) :: gitrefGo maxRefs (n + 1) rest

/-- `gitref_getreflist(args, reflist)` on one `git ls-remote` output. -/
def gitref_getreflist (maxRefs : Nat) (stdout : String) : List String :=
  (gitrefGo maxRefs 0 (pySplitLines stdout.data)).map String.mk

/-- The combination loop of `gitref`: heads output first, then tags
output, each independently truncated. -/
def gitrefCombinedReflist (maxRefs : Nat) (headsOut tagsOut : String) : List String :=
  gitref_getreflist maxRefs headsOut ++ gitref_getreflist maxRefs tagsOut

/-- One entry of the `kernel.org` release feed. -/
structure KRelease where
  moniker : String
  version : String

/-- The filtering loop of `kreleases`. -/
def kreleasesReflist (m : String) (rels : List KRelease) : List String :=
  (rels.filter (fun r => r.moniker = m)).map (fun r => r.version)

/-- The synthesized option identifier `"{prefix}_REF_{id}"`. -/
def refConfigName (pfx : String) (i : Nat) : String :=
  pfx ++ "_REF_" ++ toString i

/-- The choice block of `_ref_generator_choices`: one option per list
entry (duplicates included), identifiers numbered from `len(refs) = 0`. -/
def choiceOptions (pfx : String) (reflist : List String) : List (String × String) :=
  reflist.mapIdx (fun i r => (refConfigName pfx i, r))

/-- Python `refs[k] = v` on an insertion-ordered dict: existing keys keep
their position and take the new value, new keys append. -/
def dictSet : List (String × String) → String → String → List (String × String)
  | [], k, v => [(k, v)]
  | (k', v') :: rest, k, v =>
    if k' = k then (k, v) :: rest else (k', v') :: dictSet rest k v

/-- The `refs` dict accumulated by `_ref_generator_choices`. -/
def refsAssocGo (pfx : String) : List (String × String) → Nat → List String → List (String × String)
  | acc, _, [] => acc
  | acc, i, r :: rest => refsAssocGo pfx (dictSet acc r (refConfigName pfx i)) (i + 1) rest

/-- The `refs` dict after the main choice loop. -/
def refsAssoc (pfx : String) (reflist : List String) : List (String × String) :=
  refsAssocGo pfx [] 0 reflist

/-- One static extra option (`--extra` YAML entry). -/
structure ExtraConf where
  config : String
  ref : String

/-- The structure of the generated menu fragment: the emitted choice
options `(config-id, label)` in order, and the `default "ref" if config`
lines `(ref, config)` in order. -/
structure MenuOut where
  options : List (String × String)
  defaults : List (String × String)

/-- `ref_generator(args, reflist, extraconfs)`: dynamic options first,
then static extras (labelled `custom` when the ref name contains
`_CUSTOM_NAME`), then one default line per dict key. -/
def ref_generator (pfx : String) (reflist : List String) (extras : List ExtraConf) : MenuOut :=
  let base : List (String × String) × List (String × String) :=
    (choiceOptions pfx reflist, refsAssoc pfx reflist)
  let withExtras := extras.foldl
    (fun st e =>
      (st.1 ++ [(e.config,
         if containsSub e.ref.data "_CUSTOM_NAME".data then "custom" else e.ref)],
       dictSet st.2 e.ref e.config))
    base
  ⟨withExtras.1, withExtras.2⟩

/-! ## Predicates used in claim statements -/

/-- Is the value a dict containing both a `"hi"` and a `"lo"` key (the
guard of `combine_hi_lo`'s combining branch)? -/
def isHiLoDict : Json → Bool
  | .obj fs => Json.hasKey fs "hi" && Json.hasKey fs "lo"
  | _ => false

/-- Does `combine_hi_lo` succeed on this value? -/
def combineSafe (v : Json) : Bool :=
  match combine_hi_lo v with
  | .ok _ => true
  | .error _ => false

/-- A telemetry entry is benign for the parser when its block, if it
parsed at all, parsed to a JSON object all of whose field values
`combine_hi_lo` accepts. -/
def entryObjOk : OcpEntry → Bool
  | (_, none) => true
  | (_, some j) =>
    match j with
    | .obj fs => fs.all (fun f => combineSafe f.2)
    | _ => false

/-- Is the line a module line `fix_fqcn` would rewrite inside a task
block (pattern match with a table module)? -/
def fqcnRewritable (l : List Char) : Bool := (fqcnRewrite l).isSome

/-- The `fix_fqcn` line pass with the filter inactive, as used in the
claims. -/
def fqcnLines (lines : List (List Char)) : List (List Char) :=
  fqcnGo (fun _ => true) false 0 lines

/-! # Helper lemmas -/

theorem dropLit_append (lit x : List Char) : dropLit (lit ++ x) lit = some x := by
  induction lit with
  | nil => simp [dropLit]
  | cons c cs ih => simp [dropLit, ih]

theorem pyStartsWith_self_append (lit x : List Char) :
    pyStartsWith (lit ++ x) lit = true := by
  induction lit with
  | nil => simp [pyStartsWith]
  | cons c cs ih => simp [pyStartsWith, ih]

theorem pyStartsWith_mono {p q : List Char} (x : List Char)
    (h : pyStartsWith p q = true) : pyStartsWith (p ++ x) q = true := by
  induction q generalizing p with
  | nil => simp [pyStartsWith]
  | cons qc qs ih =>
    cases p with
    | nil => simp [pyStartsWith] at h
    | cons pc ps =>
      simp only [pyStartsWith, Bool.and_eq_true] at h
      simp [pyStartsWith, h.1, ih h.2]

theorem takeWhile_append_all {p : Char → Bool} {a s : List Char}
    (ha : a.all p = true) (hs : headFails p s) :
    (a ++ s).takeWhile p = a ∧ (a ++ s).dropWhile p = s := by
  induction a with
  | nil =>
    cases s with
    | nil => simp
    | cons c cs => simp [List.takeWhile, List.dropWhile, headFails] at hs ⊢; simp [hs]
  | cons c cs ih =>
    simp only [List.all_cons, Bool.and_eq_true] at ha
    have := ih ha.2
    simp [List.takeWhile, List.dropWhile, ha.1, this.1, this.2]

/-! # C10 : `combine_hi_lo` -/

/-- C10: for all integers `h` and `l`,
`combine_hi_lo {"hi": h, "lo": l} = (h << 32) + l`, and any input that is
not a dict containing both a `"hi"` and a `"lo"` key is returned
unchanged. -/
theorem combine_hi_lo_spec :
    (∀ h l : Int,
      combine_hi_lo (.obj [("hi", .num h), ("lo", .num l)]) = .ok (.num (pyShl32 h + l))) ∧
    (∀ j : Json, isHiLoDict j = false → combine_hi_lo j = .ok j) := by
  constructor
  · intro h l
    simp [combine_hi_lo, Json.hasKey, Json.lookupKey]
  · intro j hj
    cases j with
    | obj fs =>
      simp only [isHiLoDict] at hj
      simp [combine_hi_lo, hj]
    | null => rfl
    | bool b => rfl
    | num n => rfl
    | str s => rfl
    | arr xs => rfl

/-- Witness for C10 at concrete inputs. -/
theorem combine_hi_lo_spec_witness :
    combine_hi_lo (.obj [("hi", .num 1), ("lo", .num 2)]) = .ok (.num 4294967298) ∧
    combine_hi_lo (.num 5) = .ok (.num 5) :=
  ⟨(combine_hi_lo_spec.1 1 2).trans (by norm_num [pyShl32]),
   combine_hi_lo_spec.2 (.num 5) rfl⟩

/-! # C9 : the telemetry parser -/

/-- C9 counterexample: a log whose single timestamped block parses to the
JSON number `5` makes both parsers raise (`"error" in 5` is a `TypeError`
neither `except` clause catches), where the claim requires the entry to be
retained without raising. -/
theorem parse_nvme_ocp_nondict_raises :
    parse_nvme_ocp_stats [("2024-01-01 00:00:00", some (.num 5))] = .error () ∧
    parse_nvme_smart_stats [("2024-01-01 00:00:00", some (.num 5))] = .error () :=
  ⟨rfl, rfl⟩

theorem processFields_of_all_safe {fs : List (String × Json)}
    (h : fs.all (fun f => combineSafe f.2) = true) :
    ∃ d, processFields fs = .ok d := by
  induction fs with
  | nil => exact ⟨[], rfl⟩
  | cons f rest ih =>
    simp only [List.all_cons, Bool.and_eq_true] at h
    obtain ⟨d, hd⟩ := ih h.2
    have h1 := h.1
    unfold combineSafe at h1
    cases hc : combine_hi_lo f.2 with
    | ok v => exact ⟨(f.1, v) :: d, by simp [processFields, hc, hd]⟩
    | error e => simp [hc] at h1

/-- The OCP parser, on a log all of whose parsed blocks are JSON objects
with combinable values, drops exactly the unparseable and `error`-keyed
entries and retains all others, in order. -/
theorem parse_nvme_ocp_retained (entries : List OcpEntry)
    (h : ∀ e ∈ entries, entryObjOk e = true) :
    parse_nvme_ocp_stats entries =
      .ok ((specRetainedEntries entries).map Prod.fst,
           (specRetainedEntries entries).map Prod.snd) := by
  induction entries with
  | nil => rfl
  | cons e rest ih =>
    have he : entryObjOk e = true := h e (List.mem_cons_self e rest)
    have hrest := ih (fun e' he' => h e' (List.mem_cons_of_mem e he'))
    obtain ⟨ts, blk⟩ := e
    cases blk with
    | none => simpa [parse_nvme_ocp_stats, specRetainedEntries] using hrest
    | some j =>
      cases j with
      | obj fs =>
        simp only [entryObjOk] at he
        by_cases herr : Json.hasKey fs "error" = true
        · simp [parse_nvme_ocp_stats, pyInError, herr, specRetainedEntries, hrest]
        · obtain ⟨d, hd⟩ := processFields_of_all_safe he
          simp only [Bool.not_eq_true] at herr
          simp [parse_nvme_ocp_stats, pyInError, processItems, herr, hd,
            specRetainedEntries, hrest]
      | null => simp [entryObjOk] at he
      | bool b => simp [entryObjOk] at he
      | num n => simp [entryObjOk] at he
      | str s => simp [entryObjOk] at he
      | arr xs => simp [entryObjOk] at he

/-- The SMART parser, on a log all of whose parsed blocks are
membership-testable (dict, string or list), drops exactly the
unparseable entries, the entries whose timestamp `strptime` rejects, and
the entries containing an `error` member, retaining all others unchanged
and in order. -/
theorem parse_nvme_smart_retained (entries : List OcpEntry)
    (h : ∀ e ∈ entries, entrySmartOk e = true) :
    parse_nvme_smart_stats entries =
      .ok ((specSmartRetained entries).map Prod.fst,
           (specSmartRetained entries).map Prod.snd) := by
  induction entries with
  | nil => rfl
  | cons e rest ih =>
    have he : entrySmartOk e = true := h e (List.mem_cons_self e rest)
    have hrest := ih (fun x hx => h x (List.mem_cons_of_mem e hx))
    obtain ⟨ts, blk⟩ := e
    cases blk with
    | none => simpa [parse_nvme_smart_stats, specSmartRetained] using hrest
    | some j =>
      by_cases hts : strptimeOk ts = true
      · cases j with
        | obj fs =>
          by_cases herr : Json.hasKey fs "error" = true
          · simp [parse_nvme_smart_stats, pyInError, hts, herr,
              specSmartRetained, hrest]
          · simp only [Bool.not_eq_true] at herr
            simp [parse_nvme_smart_stats, pyInError, hts, herr,
              specSmartRetained, hrest]
        | str s =>
          by_cases herr : containsSub s.data "error".data = true
          · simp [parse_nvme_smart_stats, pyInError, hts, herr,
              specSmartRetained, hrest]
          · simp only [Bool.not_eq_true] at herr
            simp [parse_nvme_smart_stats, pyInError, hts, herr,
              specSmartRetained, hrest]
        | arr xs =>
          by_cases herr : arrHasError xs = true
          · simp [parse_nvme_smart_stats, pyInError, hts, herr,
              specSmartRetained, hrest]
          · simp only [Bool.not_eq_true] at herr
            simp [parse_nvme_smart_stats, pyInError, hts, herr,
              specSmartRetained, hrest]
        | null => simp [entrySmartOk] at he
        | bool b => simp [entrySmartOk] at he
        | num n => simp [entrySmartOk] at he
      · have hts' : strptimeOk ts = false := by simpa using hts
        simp [parse_nvme_smart_stats, hts', specSmartRetained, hrest]

/-- C9 (amended): the OCP parser, on logs of combinable JSON objects,
drops exactly the unparseable and `error`-keyed entries and retains the
rest in order; the SMART parser, on logs of membership-testable blocks,
additionally validates each matched timestamp with `strptime` and also
drops entries whose timestamp is no valid calendar datetime, retaining
the remaining decoded values — including strings and lists — unchanged
and in order. -/
theorem parse_nvme_stats_spec :
    (∀ entries : List OcpEntry, (∀ e ∈ entries, entryObjOk e = true) →
      parse_nvme_ocp_stats entries =
        .ok ((specRetainedEntries entries).map Prod.fst,
             (specRetainedEntries entries).map Prod.snd)) ∧
    (∀ entries : List OcpEntry, (∀ e ∈ entries, entrySmartOk e = true) →
      parse_nvme_smart_stats entries =
        .ok ((specSmartRetained entries).map Prod.fst,
             (specSmartRetained entries).map Prod.snd)) :=
  ⟨parse_nvme_ocp_retained, parse_nvme_smart_retained⟩

/-- Witness for C9 (amended): four timestamped blocks — a plain sample, an
`error` entry, a sample whose timestamp has month 13, and a `hi`/`lo`
sample.  The OCP parser keeps three (it never validates timestamps and
combines the `hi`/`lo` pair); the SMART parser keeps two, dropping the
invalid-timestamp entry and retaining the `hi`/`lo` object uncombined. -/
theorem parse_nvme_stats_spec_witness :
    parse_nvme_ocp_stats
      [("2024-01-01 00:00:00", some (.obj [("a", .num 1)])),
       ("2024-01-01 00:05:00", some (.obj [("error", .str "timeout")])),
       ("2024-13-01 00:00:00", some (.obj [("c", .num 7)])),
       ("2024-01-01 00:10:00", some (.obj [("b", .obj [("hi", .num 1), ("lo", .num 2)])]))] =
      .ok (["2024-01-01 00:00:00", "2024-13-01 00:00:00", "2024-01-01 00:10:00"],
           [[("a", .num 1)], [("c", .num 7)], [("b", .num 4294967298)]]) ∧
    parse_nvme_smart_stats
      [("2024-01-01 00:00:00", some (.obj [("a", .num 1)])),
       ("2024-01-01 00:05:00", some (.obj [("error", .str "timeout")])),
       ("2024-13-01 00:00:00", some (.obj [("c", .num 7)])),
       ("2024-01-01 00:10:00", some (.obj [("b", .obj [("hi", .num 1), ("lo", .num 2)])]))] =
      .ok (["2024-01-01 00:00:00", "2024-01-01 00:10:00"],
           [.obj [("a", .num 1)], .obj [("b", .obj [("hi", .num 1), ("lo", .num 2)])]]) := by
  constructor
  · exact (parse_nvme_stats_spec.1
      [("2024-01-01 00:00:00", some (.obj [("a", .num 1)])),
       ("2024-01-01 00:05:00", some (.obj [("error", .str "timeout")])),
       ("2024-13-01 00:00:00", some (.obj [("c", .num 7)])),
       ("2024-01-01 00:10:00", some (.obj [("b", .obj [("hi", .num 1), ("lo", .num 2)])]))]
      (by decide)).trans (by rfl)
  · exact (parse_nvme_stats_spec.2
      [("2024-01-01 00:00:00", some (.obj [("a", .num 1)])),
       ("2024-01-01 00:05:00", some (.obj [("error", .str "timeout")])),
       ("2024-13-01 00:00:00", some (.obj [("c", .num 7)])),
       ("2024-01-01 00:10:00", some (.obj [("b", .obj [("hi", .num 1), ("lo", .num 2)])]))]
      (by decide)).trans (by rfl)

/-! # C3 : fail-open behaviour of the change-scope filter -/

/-- C3 counterexample: on a failed diff the source returns
`set(range(1, 100000))`, so line 100000 — a positive line number a large
file can have — is *not* treated as in-scope. -/
theorem get_changed_lines_failopen_bound :
    (100000 : ℕ) ∉ get_changed_lines (.error ()) ∧
      should_fix_line true (.error ()) 100000 = false := by
  constructor
  · simp [get_changed_lines, Finset.mem_Ico]
  · simp [should_fix_line, get_changed_lines, Finset.mem_Ico]

/-- C3 (amended): when the diff subprocess fails, every line number below
the hard cap 100000 is treated as changed, hence eligible for fixing. -/
theorem get_changed_lines_failopen (n : ℕ) (h1 : 1 ≤ n) (h2 : n < 100000) :
    n ∈ get_changed_lines (.error ()) ∧ should_fix_line true (.error ()) n = true := by
  have hm : n ∈ get_changed_lines (.error ()) := by
    simp [get_changed_lines, Finset.mem_Ico]
    exact ⟨h1, h2⟩
  exact ⟨hm, by simp [should_fix_line, hm]⟩

/-- Witness for C3 (amended) at line 7. -/
theorem get_changed_lines_failopen_witness :
    7 ∈ get_changed_lines (.error ()) ∧ should_fix_line true (.error ()) 7 = true :=
  get_changed_lines_failopen 7 (by norm_num) (by norm_num)

/-! # C6 : `get_fixable_rules` fallbacks -/

/-- C6 counterexample: with the JSON listing failing and the text listing
succeeding but unparsable, `get_fixable_rules` returns the *empty* list —
no fallback to the hard-coded list happens. -/
theorem get_fixable_rules_text_empty :
    get_fixable_rules .procFail (.ok "garbage\nnothing here") = .ok [] ∧
      knownFixableRules ≠ [] := ⟨rfl, by simp [knownFixableRules]⟩

/-- C6 (amended): whenever the text-listing subprocess itself fails, a
non-empty rule list is returned (the JSON harvest when it is non-empty,
the hard-coded list otherwise). -/
theorem get_fixable_rules_procfail (jsonO : JsonOutcome) :
    ∃ l, get_fixable_rules jsonO .procFail = .ok l ∧ l ≠ [] := by
  cases jsonO with
  | procFail => exact ⟨knownFixableRules, rfl, by simp [knownFixableRules]⟩
  | decodeFail => exact ⟨knownFixableRules, rfl, by simp [knownFixableRules]⟩
  | ok rules =>
    cases hj : jsonFixable rules with
    | error e => exact ⟨knownFixableRules, by simp [get_fixable_rules, hj], by simp [knownFixableRules]⟩
    | ok l =>
      cases hl : l.isEmpty with
      | true => exact ⟨knownFixableRules, by simp [get_fixable_rules, hj, hl], by simp [knownFixableRules]⟩
      | false =>
        refine ⟨l, by simp [get_fixable_rules, hj, hl], ?_⟩
        intro hnil
        rw [hnil] at hl
        simp at hl

/-! # C7 : staging in the fix executors -/

/-- C7 counterexample: with one modified tracked file and one untracked
file, the `create_commit` of `ansible-lint-fix-rules.py` (`git add .`)
stages a file outside the set `git diff --name-only` reported. -/
theorem createCommit_stages_untracked :
    "b.txt" ∈ createCommitStaged ⟨["a.yml"], ["b.txt"]⟩ ∧
      "b.txt" ∉ gitDiffNameOnly ⟨["a.yml"], ["b.txt"]⟩ := by
  constructor
  · simp [createCommitStaged]
  · simp [gitDiffNameOnly]

/-- C7 (amended): the comprehensive fixer's executor stages exactly the
reported changed files (given changes and confirmation), while the
rules-runner's `git add .` stages every reported file but possibly more. -/
theorem staging_spec :
    (∀ s : GitState, ∀ f ∈ gitDiffNameOnly s, f ∈ createCommitStaged s) ∧
    (∀ (s : GitState) (confirm : Bool), confirm = true → gitDiffNameOnly s ≠ [] →
      processSingleRuleStaged s confirm = gitDiffNameOnly s) := by
  constructor
  · intro s f hf
    simp [createCommitStaged, gitDiffNameOnly] at hf ⊢
    exact Or.inl hf
  · intro s confirm hc hne
    simp only [gitDiffNameOnly] at hne
    simp [processSingleRuleStaged, hc, gitDiffNameOnly, addFilesStaged, hne]

/-- Witness for C7 (amended) at a concrete state. -/
theorem staging_spec_witness :
    "a.yml" ∈ createCommitStaged ⟨["a.yml"], ["b.txt"]⟩ ∧
      processSingleRuleStaged ⟨["a.yml"], ["b.txt"]⟩ true = ["a.yml"] :=
  ⟨staging_spec.1 ⟨["a.yml"], ["b.txt"]⟩ "a.yml" (by simp [gitDiffNameOnly]),
   staging_spec.2 ⟨["a.yml"], ["b.txt"]⟩ true rfl (by simp [gitDiffNameOnly])⟩

/-! # C8 : the reference-list generator -/

/-- C8 counterexample: a branch and a tag of the same short name, with one
reference requested, produce a two-element duplicated list; the menu then
has two identical options and a single default line bound to the *last*
one, so choosing the first option resolves nothing. -/
theorem gitref_duplicate_refs :
    gitrefCombinedReflist 1 "abc\trefs/heads/v1\n" "def\trefs/tags/v1\n" = ["v1", "v1"] ∧
    ¬ (["v1", "v1"] : List String).Nodup ∧
    1 < (gitrefCombinedReflist 1 "abc\trefs/heads/v1\n" "def\trefs/tags/v1\n").length ∧
    (ref_generator "P" (gitrefCombinedReflist 1 "abc\trefs/heads/v1\n" "def\trefs/tags/v1\n") []).options
      = [("P_REF_0", "v1"), ("P_REF_1", "v1")] ∧
    (ref_generator "P" (gitrefCombinedReflist 1 "abc\trefs/heads/v1\n" "def\trefs/tags/v1\n") []).defaults
      = [("v1", "P_REF_1")] := by
  refine ⟨rfl, by simp, ?_, rfl, rfl⟩
  rw [show gitrefCombinedReflist 1 "abc\trefs/heads/v1\n" "def\trefs/tags/v1\n" = ["v1", "v1"] from rfl]
  simp

theorem gitrefGo_length_le (maxRefs : Nat) (lines : List (List Char)) :
    ∀ n, (gitrefGo maxRefs n lines).length ≤ maxRefs - n := by
  induction lines with
  | nil => intro n; simp [gitrefGo]
  | cons l rest ih =>
    intro n
    by_cases hskip : containsSub l "^\x7b\x7d".data = true
    · simpa [gitrefGo, hskip] using ih n
    · by_cases hbrk : maxRefs ≤ n
      · simp [gitrefGo, hskip, hbrk]
      · have h2 := ih (n + 1)
        have hstep : gitrefGo maxRefs n (l :: rest)
            = ((pySplitOnChar '/' l).getLastD []) :: gitrefGo maxRefs (n + 1) rest := by
          simp [gitrefGo, hskip, hbrk]
        rw [hstep, List.length_cons]
        omega

/-- C8 (amended): the release-moniker scenario `["6.9","6.8","6.7"]`
yields exactly three options in feed order plus default lines resolving
the first option to `"6.9"`; each single `git ls-remote` listing is
truncated to the requested count (but the combined git list is not
deduplicated and may be longer, per the counterexample). -/
theorem ref_generator_spec :
    kreleasesReflist "stable"
        [⟨"stable", "6.9"⟩, ⟨"mainline", "6.10"⟩, ⟨"stable", "6.8"⟩, ⟨"stable", "6.7"⟩]
      = ["6.9", "6.8", "6.7"] ∧
    (ref_generator "BOOTLINUX" ["6.9", "6.8", "6.7"] []).options
      = [("BOOTLINUX_REF_0", "6.9"), ("BOOTLINUX_REF_1", "6.8"), ("BOOTLINUX_REF_2", "6.7")] ∧
    (ref_generator "BOOTLINUX" ["6.9", "6.8", "6.7"] []).defaults
      = [("6.9", "BOOTLINUX_REF_0"), ("6.8", "BOOTLINUX_REF_1"), ("6.7", "BOOTLINUX_REF_2")] ∧
    (∀ (m : Nat) (s : String), (gitref_getreflist m s).length ≤ m) := by
  refine ⟨rfl, rfl, rfl, ?_⟩
  intro m s
  have := gitrefGo_length_le m (pySplitLines s.data) 0
  simpa [gitref_getreflist] using this

/-! # C1 : the diff-hunk parser -/

theorem parseDigits_append {a s : List Char} (ha : digitsOk a = true)
    (hs : headFails pyIsDigit s) :
    parseDigits (a ++ s) = some (digitsVal a, s) := by
  simp only [digitsOk, Bool.and_eq_true, Bool.not_eq_true'] at ha
  obtain ⟨hT, hD⟩ := takeWhile_append_all (p := pyIsDigit) ha.2 hs
  unfold parseDigits
  rw [hT, hD]
  simp [ha.1, digitsVal]

theorem parseOptCommaDigits_space (t : List Char) :
    parseOptCommaDigits (' ' :: t) = (none, ' ' :: t) := by
  simp [parseOptCommaDigits]

theorem parseOptCommaDigits_some {b s : List Char} (hb : digitsOk b = true)
    (hs : headFails pyIsDigit s) :
    parseOptCommaDigits (',' :: (b ++ s)) = (some (digitsVal b), s) := by
  cases b with
  | nil => simp [digitsOk] at hb
  | cons b0 bs =>
    have hd : pyIsDigit b0 = true := by
      simp only [digitsOk, Bool.and_eq_true, List.all_cons] at hb
      exact hb.2.1
    have := parseDigits_append (a := b0 :: bs) (s := s) hb hs
    simp only [parseOptCommaDigits, List.cons_append]
    rw [hd]
    simp only [List.cons_append] at this
    rw [this]
    simp

theorem optComma_append_headFails (b : Option (List Char)) (y : List Char)
    (hy : headFails pyIsDigit y) (hb : optDigitsOk b = true) :
    headFails pyIsDigit (optComma b ++ y) := by
  cases b with
  | none => simpa [optComma] using hy
  | some bs => simp [optComma, headFails, pyIsDigit]

theorem parseHunkHeader_render {a c : List Char} {b d : Option (List Char)}
    {trail : List Char} (hok : DiffLine.okB (.hunk a b c d trail) = true) :
    parseHunkHeader (DiffLine.render (.hunk a b c d trail))
      = some (digitsVal c, d.map digitsVal) := by
  simp only [DiffLine.okB, Bool.and_eq_true] at hok
  obtain ⟨⟨⟨ha, hb⟩, hc⟩, hd⟩ := hok
  have hsp : ∀ t : List Char, headFails pyIsDigit (' ' :: t) := by
    intro t; simp [headFails, pyIsDigit]
  unfold DiffLine.render parseHunkHeader
  simp only [List.append_assoc]
  rw [dropLit_append, Option.some_bind]
  have hfa : headFails pyIsDigit
      (optComma b ++ (" +".data ++ (c ++ (optComma d ++ (" @@".data ++ trail))))) :=
    optComma_append_headFails b _ (hsp _) hb
  rw [parseDigits_append ha hfa, Option.some_bind]
  have hstep2 :
      (parseOptCommaDigits
        (optComma b ++ (" +".data ++ (c ++ (optComma d ++ (" @@".data ++ trail)))))).2
      = " +".data ++ (c ++ (optComma d ++ (" @@".data ++ trail))) := by
    cases b with
    | none =>
      simp only [optComma, List.nil_append, List.cons_append]
      rw [parseOptCommaDigits_space]
    | some bs =>
      simp only [optComma, List.cons_append]
      rw [parseOptCommaDigits_some hb (hsp _)]
  rw [hstep2, dropLit_append, Option.some_bind]
  have hfc : headFails pyIsDigit (optComma d ++ (" @@".data ++ trail)) :=
    optComma_append_headFails d _ (hsp _) hd
  rw [parseDigits_append hc hfc, Option.some_bind]
  have hstepd :
      parseOptCommaDigits (optComma d ++ (" @@".data ++ trail))
      = (d.map digitsVal, " @@".data ++ trail) := by
    cases d with
    | none =>
      simp only [optComma, List.nil_append, List.cons_append, Option.map_none']
      rw [parseOptCommaDigits_space]
    | some ds =>
      simp only [optComma, List.cons_append, Option.map_some']
      rw [parseOptCommaDigits_some hd (hsp _)]
  rw [hstepd]
  simp [pyStartsWith_self_append, pyStartsWith]

theorem hunkLineSet_render {dl : DiffLine} (hok : dl.okB = true) :
    hunkLineSet dl.render = dl.claimSet := by
  cases dl with
  | other s =>
    simp only [DiffLine.okB, Bool.not_eq_true'] at hok
    simp [hunkLineSet, DiffLine.render, hok, DiffLine.claimSet]
  | hunk a b c d trail =>
    have hsw : pyStartsWith (DiffLine.render (.hunk a b c d trail)) "@@".data = true := by
      unfold DiffLine.render
      simp only [List.append_assoc]
      exact pyStartsWith_mono _ (by decide)
    rw [hunkLineSet, if_pos hsw, parseHunkHeader_render hok]
    cases d with
    | none => simp [hunkRange, DiffLine.claimSet]
    | some ds => simp [hunkRange, DiffLine.claimSet]

theorem changedFromLines_mem (lines : List (List Char)) (n : ℕ) :
    n ∈ changedFromLines lines ↔ ∃ l ∈ lines, n ∈ hunkLineSet l := by
  have hstep : ∀ (acc : Finset ℕ) (l : List Char),
      (if pyStartsWith l "@@".data then
        match parseHunkHeader l with
        | some p => acc ∪ hunkRange p
        | none => acc
       else acc) = acc ∪ hunkLineSet l := by
    intro acc l
    unfold hunkLineSet
    by_cases hsw : pyStartsWith l "@@".data = true
    · rw [if_pos hsw, if_pos hsw]
      cases parseHunkHeader l with
      | some p => rfl
      | none => simp
    · rw [if_neg hsw, if_neg hsw, Finset.union_empty]
  have hgen : ∀ (acc : Finset ℕ),
      n ∈ lines.foldl (fun acc l =>
        if pyStartsWith l "@@".data then
          match parseHunkHeader l with
          | some p => acc ∪ hunkRange p
          | none => acc
        else acc) acc ↔ n ∈ acc ∨ ∃ l ∈ lines, n ∈ hunkLineSet l := by
    induction lines with
    | nil => intro acc; simp
    | cons l rest ih =>
      intro acc
      rw [List.foldl_cons, hstep acc l, ih]
      simp [Finset.mem_union, or_assoc]
  have := hgen ∅
  simpa [changedFromLines] using this

/-- C1: for every diff output whose lines beginning with `@@` are
well-formed unified-diff hunk headers, `get_changed_lines` contains
exactly the union over all hunks of `{c, ..., c+d-1}` (the singleton `{c}`
when the count is omitted) and nothing else. -/
theorem get_changed_lines_spec (stdout : String) (ls : List DiffLine) (n : ℕ)
    (hsplit : pySplitNl stdout.data = ls.map DiffLine.render)
    (hok : ∀ dl ∈ ls, dl.okB = true) :
    n ∈ get_changed_lines (.ok stdout) ↔ ∃ dl ∈ ls, n ∈ dl.claimSet := by
  show n ∈ changedFromLines (pySplitNl stdout.data) ↔ _
  rw [hsplit, changedFromLines_mem]
  constructor
  · rintro ⟨l, hl, hn⟩
    obtain ⟨dl, hdl, rfl⟩ := List.mem_map.1 hl
    exact ⟨dl, hdl, by rwa [hunkLineSet_render (hok dl hdl)] at hn⟩
  · rintro ⟨dl, hdl, hn⟩
    exact ⟨dl.render, List.mem_map_of_mem _ hdl,
      by rwa [hunkLineSet_render (hok dl hdl)]⟩

/-- Witness for C1: a two-hunk diff with a header line, a count-carrying
hunk `+3,4`, and a count-free hunk `+10`. -/
theorem get_changed_lines_spec_witness :
    4 ∈ get_changed_lines (.ok "diff --git a/f b/f\n@@ -1,2 +3,4 @@ ctx\n+x\n@@ -9 +10 @@\n+y") ∧
    10 ∈ get_changed_lines (.ok "diff --git a/f b/f\n@@ -1,2 +3,4 @@ ctx\n+x\n@@ -9 +10 @@\n+y") ∧
    7 ∉ get_changed_lines (.ok "diff --git a/f b/f\n@@ -1,2 +3,4 @@ ctx\n+x\n@@ -9 +10 @@\n+y") := by
  have hs : pySplitNl ("diff --git a/f b/f\n@@ -1,2 +3,4 @@ ctx\n+x\n@@ -9 +10 @@\n+y").data
      = List.map DiffLine.render
        [DiffLine.other "diff --git a/f b/f".data,
         DiffLine.hunk "1".data (some "2".data) "3".data (some "4".data) " ctx".data,
         DiffLine.other "+x".data,
         DiffLine.hunk "9".data none "10".data none [],
         DiffLine.other "+y".data] := by decide
  have hok : ∀ dl ∈ [DiffLine.other "diff --git a/f b/f".data,
         DiffLine.hunk "1".data (some "2".data) "3".data (some "4".data) " ctx".data,
         DiffLine.other "+x".data,
         DiffLine.hunk "9".data none "10".data none [],
         DiffLine.other "+y".data], dl.okB = true := by decide
  refine ⟨?_, ?_, ?_⟩
  · exact (get_changed_lines_spec _ _ 4 hs hok).2
      ⟨DiffLine.hunk "1".data (some "2".data) "3".data (some "4".data) " ctx".data,
       by simp, by simp [DiffLine.claimSet, digitsVal, digitVal]⟩
  · exact (get_changed_lines_spec _ _ 10 hs hok).2
      ⟨DiffLine.hunk "9".data none "10".data none [],
       by simp, by simp [DiffLine.claimSet, digitsVal, digitVal]⟩
  · intro hmem
    have := (get_changed_lines_spec _ _ 7 hs hok).1 hmem
    revert this
    decide

/-! # Lemmas on the boolean-literal transform (C4, C2) -/

theorem dropLit_sound {s lit r : List Char} (h : dropLit s lit = some r) :
    s = lit ++ r := by
  induction lit generalizing s with
  | nil => simp [dropLit] at h; simp [h]
  | cons p ps ih =>
    cases s with
    | nil => simp [dropLit] at h
    | cons c cs =>
      simp only [dropLit] at h
      split at h
      · next hc => rw [List.cons_append, ← ih h, hc]
      · simp at h

theorem takeWhile_all (p : Char → Bool) (cs : List Char) :
    (cs.takeWhile p).all p = true := by
  induction cs with
  | nil => rfl
  | cons c rest ih =>
    cases hp : p c with
    | true => simp [List.takeWhile, hp, ih]
    | false => simp [List.takeWhile, hp]

theorem allSpace_not_mem {s : List Char} (h : allSpace s = true) {d : Char}
    (hd : pyIsSpace d = false) : d ∉ s := by
  intro hmem
  simp only [allSpace, List.all_eq_true] at h
  rw [h d hmem] at hd
  cases hd

theorem truthyTail_shape {lit cs : List Char} (h : truthyTail lit cs = true) :
    ∃ sp tail, cs = sp ++ (lit ++ tail) ∧ allSpace sp = true ∧
      allSpace tail = true ∧ sp ≠ [] := by
  unfold truthyTail at h
  rw [Bool.and_eq_true] at h
  obtain ⟨hne, hmatch⟩ := h
  cases hd : dropLit (dropSpace cs) lit with
  | none => rw [hd] at hmatch; cases hmatch
  | some r =>
    rw [hd] at hmatch
    refine ⟨takeSpace cs, r, ?_, takeWhile_all _ _, hmatch, ?_⟩
    · rw [← dropLit_sound hd]
      exact (List.takeWhile_append_dropWhile ..).symm
    · intro hnil
      rw [takeSpace] at hnil
      simp [takeSpace, hnil] at hne

theorem truthyTail_no_colon {lit cs : List Char} (hlit : ':' ∉ lit)
    (h : truthyTail lit cs = true) : ':' ∉ cs := by
  obtain ⟨sp, tail, rfl, hsp, htail, -⟩ := truthyTail_shape h
  intro hmem
  rcases List.mem_append.1 hmem with h1 | h2
  · exact allSpace_not_mem hsp (by decide) h1
  · rcases List.mem_append.1 h2 with h3 | h4
    · exact hlit h3
    · exact allSpace_not_mem htail (by decide) h4

theorem truthyMatches_no_colon {lit cs : List Char} (h : ':' ∉ cs) :
    truthyMatches lit cs = false := by
  induction cs with
  | nil => rfl
  | cons c rest ih =>
    have hc : c ≠ ':' := fun he => h (he ▸ List.mem_cons_self c rest)
    simp only [truthyMatches, Bool.or_eq_false_iff, Bool.and_eq_false_iff]
    exact ⟨Or.inl (by simp [hc]), ih (fun hm => h (List.mem_cons_of_mem c hm))⟩

theorem truthySub_no_match {lit rep cs : List Char}
    (h : truthyMatches lit cs = false) : truthySub lit rep cs = cs := by
  induction cs with
  | nil => rfl
  | cons c rest ih =>
    simp only [truthyMatches, Bool.or_eq_false_iff] at h
    simp only [truthySub, h.1, if_false, Bool.false_eq_true]
    rw [ih h.2]

theorem truthySub_match_shape {lit rep cs : List Char}
    (h : truthyMatches lit cs = true) :
    ∃ pre, truthySub lit rep cs = pre ++ rep := by
  induction cs with
  | nil => cases h
  | cons c rest ih =>
    cases hcond : (decide (c = ':') && truthyTail lit rest) with
    | true => exact ⟨[], by simp [truthySub, hcond]⟩
    | false =>
      simp only [truthyMatches, hcond, Bool.false_or] at h
      obtain ⟨pre, hpre⟩ := ih h
      exact ⟨c :: pre, by simp [truthySub, hcond, hpre]⟩

theorem truthySub_nl {lit rep cs : List Char} (hcs : '\n' ∉ cs)
    (hrep : '\n' ∉ rep) : '\n' ∉ truthySub lit rep cs := by
  induction cs with
  | nil => simp [truthySub]
  | cons c rest ih =>
    have hc : '\n' ≠ c := fun he => hcs (he ▸ List.mem_cons_self c rest)
    have hr : '\n' ∉ rest := fun hm => hcs (List.mem_cons_of_mem c hm)
    simp only [truthySub]
    split
    · exact hrep
    · intro hmem
      rcases List.mem_cons.1 hmem with h1 | h2
      · exact hc h1
      · exact ih hr h2

theorem truthyMatches_append_rep {lit rep pre : List Char}
    (hlitc : ':' ∉ lit) (hbase : truthyMatches lit rep = false) (hrep : ':' ∈ rep) :
    truthyMatches lit (pre ++ rep) = false := by
  induction pre with
  | nil => simpa using hbase
  | cons c p' ih =>
    simp only [List.cons_append, truthyMatches, Bool.or_eq_false_iff]
    refine ⟨?_, ih⟩
    cases ht : truthyTail lit (p' ++ rep) with
    | false => simp [ht]
    | true =>
      exact absurd (List.mem_append.2 (Or.inr hrep)) (truthyTail_no_colon hlitc ht)

theorem dropSpace_decomp {sp rest : List Char} (hsp : allSpace sp = true)
    (hr : headFails pyIsSpace rest) :
    takeSpace (sp ++ rest) = sp ∧ dropSpace (sp ++ rest) = rest := by
  have hall : sp.all pyIsSpace = true := hsp
  exact takeWhile_append_all hall hr

theorem headFails_of_nonspace {v sp2 : List Char}
    (hv : ∀ c ∈ v, pyIsSpace c = false) (hvne : v ≠ []) :
    headFails pyIsSpace (v ++ sp2) := by
  cases v with
  | nil => exact absurd rfl hvne
  | cons c rest => exact hv c (List.mem_cons_self c rest)

theorem dropLit_ne_lit {lit v sp2 : List Char}
    (hlitns : ∀ c ∈ lit, pyIsSpace c = false)
    (hv : ∀ c ∈ v, pyIsSpace c = false) (hvne : v ≠ []) (hne : v ≠ lit)
    (hsp2 : allSpace sp2 = true) :
    (match dropLit (v ++ sp2) lit with
     | some rest => allSpace rest
     | none => false) = false := by
  cases hd : dropLit (v ++ sp2) lit with
  | none => rfl
  | some r =>
    have heq : v ++ sp2 = lit ++ r := dropLit_sound hd
    by_cases hlen : lit.length ≤ v.length
    · have hlit_eq : v.take lit.length = lit := by
        have h1 := congrArg (List.take lit.length) heq
        rw [List.take_append_of_le_length hlen, List.take_left] at h1
        exact h1
      have hr_eq : r = v.drop lit.length ++ sp2 := by
        have h2 := congrArg (List.drop lit.length) heq
        rw [List.drop_append_of_le_length hlen, List.drop_left] at h2
        exact h2.symm
      cases hdrop : v.drop lit.length with
      | nil =>
        exfalso
        apply hne
        have hlenv : v.length ≤ lit.length := by
          have := congrArg List.length hdrop
          simp at this
          omega
        have hlen_eq : v.length = lit.length := le_antisymm hlenv hlen
        rw [← hlit_eq, ← hlen_eq, List.take_length]
      | cons c cs =>
        have hc_in_v : c ∈ v := by
          have : c ∈ v.drop lit.length := by rw [hdrop]; exact List.mem_cons_self c cs
          exact List.mem_of_mem_drop this
        rw [hr_eq, hdrop]
        simp only [allSpace, List.cons_append, List.all_cons, Bool.and_eq_false_iff]
        left
        exact hv c hc_in_v
    · exfalso
      push_neg at hlen
      have h1 : (v ++ sp2).take lit.length = lit := by rw [heq, List.take_left]
      have h2 : (v ++ sp2).take lit.length = v ++ sp2.take (lit.length - v.length) := by
        rw [List.take_append_eq_append_take, List.take_of_length_le (le_of_lt hlen)]
      have hlit_split : lit = v ++ sp2.take (lit.length - v.length) := h1.symm.trans h2
      cases hw : sp2.take (lit.length - v.length) with
      | nil =>
        apply hne
        rw [hlit_split, hw, List.append_nil]
      | cons c cs =>
        have hc_sp2 : c ∈ sp2 := by
          have : c ∈ sp2.take (lit.length - v.length) := by
            rw [hw]; exact List.mem_cons_self c cs
          exact List.mem_of_mem_take this
        have hc_lit : c ∈ lit := by
          rw [hlit_split, hw]
          exact List.mem_append.2 (Or.inr (List.mem_cons_self c cs))
        have hns := hlitns c hc_lit
        have hsp : pyIsSpace c = true := by
          simp only [allSpace, List.all_eq_true] at hsp2
          exact hsp2 c hc_sp2
        rw [hns] at hsp
        cases hsp

theorem truthyMatches_decomp_ne {lit p sp1 v sp2 : List Char}
    (hlitc : ':' ∉ lit) (hlitns : ∀ c ∈ lit, pyIsSpace c = false)
    (hsp1 : allSpace sp1 = true)
    (hv : ∀ c ∈ v, pyIsSpace c = false) (hvc : ':' ∉ v) (hvne : v ≠ [])
    (hne : v ≠ lit) (hsp2 : allSpace sp2 = true) :
    truthyMatches lit (p ++ ':' :: (sp1 ++ (v ++ sp2))) = false := by
  induction p with
  | nil =>
    simp only [List.nil_append, truthyMatches, Bool.or_eq_false_iff]
    constructor
    · rw [Bool.and_eq_false_iff]
      right
      unfold truthyTail
      rw [Bool.and_eq_false_iff]
      right
      have hspan := @dropSpace_decomp sp1 (v ++ sp2) hsp1
        (headFails_of_nonspace hv hvne)
      rw [hspan.2]
      exact dropLit_ne_lit hlitns hv hvne hne hsp2
    · apply truthyMatches_no_colon
      intro hmem
      rcases List.mem_append.1 hmem with h1 | h2
      · exact allSpace_not_mem hsp1 (by decide) h1
      · rcases List.mem_append.1 h2 with h3 | h4
        · exact hvc h3
        · exact allSpace_not_mem hsp2 (by decide) h4
  | cons c p' ih =>
    simp only [List.cons_append, truthyMatches, Bool.or_eq_false_iff]
    refine ⟨?_, ih⟩
    cases ht : truthyTail lit (p' ++ ':' :: (sp1 ++ (v ++ sp2))) with
    | false => simp [ht]
    | true =>
      exact absurd (List.mem_append.2 (Or.inr (List.mem_cons_self _ _)))
        (truthyTail_no_colon hlitc ht)

theorem truthyTail_fires {v sp1 sp2 : List Char}
    (hv : ∀ c ∈ v, pyIsSpace c = false) (hvne : v ≠ [])
    (hsp1 : allSpace sp1 = true) (hne : sp1 ≠ []) (hsp2 : allSpace sp2 = true) :
    truthyTail v (sp1 ++ (v ++ sp2)) = true := by
  unfold truthyTail
  have hspan := @dropSpace_decomp sp1 (v ++ sp2) hsp1
    (headFails_of_nonspace hv hvne)
  rw [Bool.and_eq_true]
  constructor
  · rw [hspan.1]
    simpa [List.isEmpty_iff] using hne
  · rw [hspan.2, dropLit_append]
    exact hsp2

theorem truthySub_fires {v rep p sp1 sp2 : List Char}
    (hvc : ':' ∉ v) (hv : ∀ c ∈ v, pyIsSpace c = false) (hvne : v ≠ [])
    (hsp1 : allSpace sp1 = true) (hne : sp1 ≠ []) (hsp2 : allSpace sp2 = true) :
    truthySub v rep (p ++ ':' :: (sp1 ++ (v ++ sp2))) = p ++ rep := by
  induction p with
  | nil =>
    simp only [List.nil_append, truthySub,
      truthyTail_fires hv hvne hsp1 hne hsp2]
    simp
  | cons c p' ih =>
    have hcond : (decide (c = ':') && truthyTail v (p' ++ ':' :: (sp1 ++ (v ++ sp2)))) = false := by
      cases ht : truthyTail v (p' ++ ':' :: (sp1 ++ (v ++ sp2))) with
      | false => simp
      | true =>
        exact absurd (List.mem_append.2 (Or.inr (List.mem_cons_self _ _)))
          (truthyTail_no_colon hvc ht)
    rw [List.cons_append, truthySub, hcond]
    simp [ih]

theorem truthyFold_skip {A : List (List Char × List Char)} {p sp1 v sp2 : List Char}
    (hA : ∀ pr ∈ A, ':' ∉ pr.1 ∧ (∀ c ∈ pr.1, pyIsSpace c = false) ∧ v ≠ pr.1)
    (hsp1 : allSpace sp1 = true)
    (hv : ∀ c ∈ v, pyIsSpace c = false) (hvc : ':' ∉ v) (hvne : v ≠ [])
    (hsp2 : allSpace sp2 = true) :
    A.foldl (fun cur pr => truthySub pr.1 pr.2 cur) (p ++ ':' :: (sp1 ++ (v ++ sp2)))
      = p ++ ':' :: (sp1 ++ (v ++ sp2)) := by
  induction A with
  | nil => rfl
  | cons pr ps ih =>
    have h1 := hA pr (List.mem_cons_self pr ps)
    rw [List.foldl_cons,
      truthySub_no_match (truthyMatches_decomp_ne h1.1 h1.2.1 hsp1 hv hvc hvne h1.2.2 hsp2)]
    exact ih (fun q hq => hA q (List.mem_cons_of_mem pr hq))

theorem truthyFold_fixed {B : List (List Char × List Char)} {pre rep : List Char}
    (hB : ∀ pr ∈ B, ':' ∉ pr.1 ∧ truthyMatches pr.1 ": true".data = false ∧
          truthyMatches pr.1 ": false".data = false)
    (hrep : rep = ": true".data ∨ rep = ": false".data) :
    B.foldl (fun cur pr => truthySub pr.1 pr.2 cur) (pre ++ rep) = pre ++ rep := by
  induction B with
  | nil => rfl
  | cons pr ps ih =>
    have h1 := hB pr (List.mem_cons_self pr ps)
    have hnom : truthyMatches pr.1 (pre ++ rep) = false := by
      rcases hrep with hr | hr <;> subst hr
      · exact truthyMatches_append_rep h1.1 h1.2.1 (by decide)
      · exact truthyMatches_append_rep h1.1 h1.2.2 (by decide)
    rw [List.foldl_cons, truthySub_no_match hnom]
    exact ih (fun q hq => hB q (List.mem_cons_of_mem pr hq))

theorem truthyFold_shape {B : List (List Char × List Char)} (cs : List Char)
    (hB : ∀ pr ∈ B, ':' ∉ pr.1 ∧ truthyMatches pr.1 ": true".data = false ∧
          truthyMatches pr.1 ": false".data = false ∧
          (pr.2 = ": true".data ∨ pr.2 = ": false".data)) :
    B.foldl (fun cur pr => truthySub pr.1 pr.2 cur) cs = cs ∨
      ∃ pre rep, (rep = ": true".data ∨ rep = ": false".data) ∧
        B.foldl (fun cur pr => truthySub pr.1 pr.2 cur) cs = pre ++ rep := by
  induction B with
  | nil => exact Or.inl rfl
  | cons pr ps ih =>
    have h1 := hB pr (List.mem_cons_self pr ps)
    have htail : ∀ q ∈ ps, ':' ∉ q.1 ∧ truthyMatches q.1 ": true".data = false ∧
        truthyMatches q.1 ": false".data = false ∧
        (q.2 = ": true".data ∨ q.2 = ": false".data) :=
      fun q hq => hB q (List.mem_cons_of_mem pr hq)
    cases hm : truthyMatches pr.1 cs with
    | false =>
      rw [List.foldl_cons, truthySub_no_match hm]
      exact ih htail
    | true =>
      obtain ⟨pre, hpre⟩ := @truthySub_match_shape _ pr.2 _ hm
      rw [List.foldl_cons, hpre,
        truthyFold_fixed (fun q hq => ⟨(htail q hq).1, (htail q hq).2.1, (htail q hq).2.2.1⟩)
          h1.2.2.2]
      exact Or.inr ⟨pre, pr.2, h1.2.2.2, rfl⟩

theorem truthyLine_idem (cs : List Char) : truthyLine (truthyLine cs) = truthyLine cs := by
  have hB : ∀ pr ∈ truthyPairs, ':' ∉ pr.1 ∧ truthyMatches pr.1 ": true".data = false ∧
      truthyMatches pr.1 ": false".data = false ∧
      (pr.2 = ": true".data ∨ pr.2 = ": false".data) := by decide
  rcases truthyFold_shape (B := truthyPairs) cs hB with h | ⟨pre, rep, hrep, h⟩
  · unfold truthyLine
    rw [h, h]
  · unfold truthyLine
    rw [h]
    exact truthyFold_fixed
      (fun q hq => ⟨(hB q hq).1, (hB q hq).2.1, (hB q hq).2.2.1⟩) hrep

theorem truthyLine_maps_aux {A B : List (List Char × List Char)}
    {p sp1 v rep sp2 : List Char}
    (hsplit : truthyPairs = A ++ ((v, rep) :: B))
    (hA : ∀ pr ∈ A, ':' ∉ pr.1 ∧ (∀ c ∈ pr.1, pyIsSpace c = false) ∧ v ≠ pr.1)
    (hB : ∀ pr ∈ B, ':' ∉ pr.1 ∧ truthyMatches pr.1 ": true".data = false ∧
          truthyMatches pr.1 ": false".data = false)
    (hrep : rep = ": true".data ∨ rep = ": false".data)
    (hvc : ':' ∉ v) (hv : ∀ c ∈ v, pyIsSpace c = false) (hvne : v ≠ [])
    (hsp1 : allSpace sp1 = true) (hne : sp1 ≠ []) (hsp2 : allSpace sp2 = true) :
    truthyLine (p ++ ':' :: (sp1 ++ (v ++ sp2))) = p ++ rep := by
  unfold truthyLine
  rw [hsplit, List.foldl_append, List.foldl_cons,
    truthyFold_skip hA hsp1 hv hvc hvne hsp2,
    truthySub_fires hvc hv hvne hsp1 hne hsp2]
  exact truthyFold_fixed hB hrep

/-- C4 (amended), mapping direction: a line whose trailing value after a
colon is one of the eight handled literals is rewritten to the paired
boolean replacement. -/
theorem truthyLine_maps (p sp1 v rep sp2 : List Char)
    (hmem : (v, rep) ∈ truthyPairs)
    (hsp1 : allSpace sp1 = true) (hne : sp1 ≠ []) (hsp2 : allSpace sp2 = true) :
    truthyLine (p ++ ':' :: (sp1 ++ (v ++ sp2))) = p ++ rep := by
  simp only [truthyPairs, List.mem_cons, List.not_mem_nil, or_false,
    Prod.mk.injEq] at hmem
  rcases hmem with h8 | h8 | h8 | h8 | h8 | h8 | h8 | h8 <;>
    obtain ⟨rfl, rfl⟩ := h8
  · exact truthyLine_maps_aux (A := []) (B := [("no".data, ": false".data), ("Yes".data, ": true".data), ("No".data, ": false".data), ("YES".data, ": true".data), ("NO".data, ": false".data), ("on".data, ": true".data), ("off".data, ": false".data)]) rfl (by decide) (by decide)
      (Or.inl rfl) (by decide) (by decide) (by decide) hsp1 hne hsp2
  · exact truthyLine_maps_aux (A := [("yes".data, ": true".data)]) (B := [("Yes".data, ": true".data), ("No".data, ": false".data), ("YES".data, ": true".data), ("NO".data, ": false".data), ("on".data, ": true".data), ("off".data, ": false".data)]) rfl (by decide) (by decide)
      (Or.inr rfl) (by decide) (by decide) (by decide) hsp1 hne hsp2
  · exact truthyLine_maps_aux (A := [("yes".data, ": true".data), ("no".data, ": false".data)]) (B := [("No".data, ": false".data), ("YES".data, ": true".data), ("NO".data, ": false".data), ("on".data, ": true".data), ("off".data, ": false".data)]) rfl (by decide) (by decide)
      (Or.inl rfl) (by decide) (by decide) (by decide) hsp1 hne hsp2
  · exact truthyLine_maps_aux (A := [("yes".data, ": true".data), ("no".data, ": false".data), ("Yes".data, ": true".data)]) (B := [("YES".data, ": true".data), ("NO".data, ": false".data), ("on".data, ": true".data), ("off".data, ": false".data)]) rfl (by decide) (by decide)
      (Or.inr rfl) (by decide) (by decide) (by decide) hsp1 hne hsp2
  · exact truthyLine_maps_aux (A := [("yes".data, ": true".data), ("no".data, ": false".data), ("Yes".data, ": true".data), ("No".data, ": false".data)]) (B := [("NO".data, ": false".data), ("on".data, ": true".data), ("off".data, ": false".data)]) rfl (by decide) (by decide)
      (Or.inl rfl) (by decide) (by decide) (by decide) hsp1 hne hsp2
  · exact truthyLine_maps_aux (A := [("yes".data, ": true".data), ("no".data, ": false".data), ("Yes".data, ": true".data), ("No".data, ": false".data), ("YES".data, ": true".data)]) (B := [("on".data, ": true".data), ("off".data, ": false".data)]) rfl (by decide) (by decide)
      (Or.inr rfl) (by decide) (by decide) (by decide) hsp1 hne hsp2
  · exact truthyLine_maps_aux (A := [("yes".data, ": true".data), ("no".data, ": false".data), ("Yes".data, ": true".data), ("No".data, ": false".data), ("YES".data, ": true".data), ("NO".data, ": false".data)]) (B := [("off".data, ": false".data)]) rfl (by decide) (by decide)
      (Or.inl rfl) (by decide) (by decide) (by decide) hsp1 hne hsp2
  · exact truthyLine_maps_aux (A := [("yes".data, ": true".data), ("no".data, ": false".data), ("Yes".data, ": true".data), ("No".data, ": false".data), ("YES".data, ": true".data), ("NO".data, ": false".data), ("on".data, ": true".data)]) (B := []) rfl (by decide) (by decide)
      (Or.inr rfl) (by decide) (by decide) (by decide) hsp1 hne hsp2

theorem truthyLine_skips (p sp1 v sp2 : List Char)
    (hsp1 : allSpace sp1 = true) (hne : sp1 ≠ []) (hsp2 : allSpace sp2 = true)
    (hv : ∀ c ∈ v, pyIsSpace c = false) (hvc : ':' ∉ v) (hvne : v ≠ [])
    (hv8 : ∀ pr ∈ truthyPairs, v ≠ pr.1) :
    truthyLine (p ++ ':' :: (sp1 ++ (v ++ sp2))) = p ++ ':' :: (sp1 ++ (v ++ sp2)) := by
  have hconc : ∀ pr ∈ truthyPairs, ':' ∉ pr.1 ∧ (∀ c ∈ pr.1, pyIsSpace c = false) := by
    decide
  unfold truthyLine
  exact truthyFold_skip
    (fun pr hpr => ⟨(hconc pr hpr).1, (hconc pr hpr).2, hv8 pr hpr⟩)
    hsp1 hv hvc hvne hsp2

/-- C4 (amended): the boolean-literal transform maps a trailing value
after a colon to `true`/`false` exactly for the eight source literals
`yes/no/Yes/No/YES/NO/on/off`, and leaves a line with any other
(non-blank, colon-free) trailing value — including other case-variants
such as `On` or `yEs` — unchanged. -/
theorem fix_yaml_truthy_spec :
    (∀ p sp1 v rep sp2 : List Char, (v, rep) ∈ truthyPairs → allSpace sp1 = true →
      sp1 ≠ [] → allSpace sp2 = true →
      truthyLine (p ++ ':' :: (sp1 ++ (v ++ sp2))) = p ++ rep) ∧
    (∀ p sp1 v sp2 : List Char, allSpace sp1 = true → sp1 ≠ [] → allSpace sp2 = true →
      (∀ c ∈ v, pyIsSpace c = false) → ':' ∉ v → v ≠ [] →
      (∀ pr ∈ truthyPairs, v ≠ pr.1) →
      truthyLine (p ++ ':' :: (sp1 ++ (v ++ sp2))) = p ++ ':' :: (sp1 ++ (v ++ sp2))) :=
  ⟨fun p sp1 v rep sp2 hm h1 h2 h3 => truthyLine_maps p sp1 v rep sp2 hm h1 h2 h3,
   fun p sp1 v sp2 h1 h2 h3 h4 h5 h6 h7 =>
     truthyLine_skips p sp1 v sp2 h1 h2 h3 h4 h5 h6 h7⟩

/-- C4 counterexample: `On` is a case-variant of `on`, but the transform
leaves `x: On` unchanged instead of producing `x: true`. -/
theorem fix_yaml_truthy_case_variant :
    fix_yaml_truthy (fun _ => true) "x: On" = "x: On" ∧
      ("x: On" : String) ≠ "x: true" := by
  exact ⟨rfl, by decide⟩

/-- Witness for C4 (amended): `x: Yes` becomes `x: true`; `x: On` stays. -/
theorem fix_yaml_truthy_spec_witness :
    truthyLine ("x".data ++ ':' :: (" ".data ++ ("Yes".data ++ []))) =
      "x".data ++ ": true".data ∧
    truthyLine ("x".data ++ ':' :: (" ".data ++ ("On".data ++ []))) =
      "x".data ++ ':' :: (" ".data ++ ("On".data ++ [])) :=
  ⟨fix_yaml_truthy_spec.1 "x".data " ".data "Yes".data ": true".data []
      (by decide) (by decide) (by decide) (by decide),
   fix_yaml_truthy_spec.2 "x".data " ".data "On".data []
      (by decide) (by decide) (by decide) (by decide) (by decide) (by decide) (by decide)⟩

/-! # Lemmas on the bracket-spacing transform (C2) -/

theorem ne_of_space {c d : Char} (hc : pyIsSpace c = true)
    (hd : pyIsSpace d = false) : c ≠ d := by
  intro h
  subst h
  rw [hc] at hd
  cases hd

theorem headOkB_bSub1Go_true (cs : List Char) : headOkB (bSub1Go true cs) = true := by
  induction cs with
  | nil => rfl
  | cons c rest ih =>
    by_cases hsp : pyIsSpace c = true
    · simpa [bSub1Go, hsp] using ih
    · by_cases hbr : c = '['
      · subst hbr
        simp [bSub1Go, show pyIsSpace '[' = false from by decide, headOkB]
      · simp [bSub1Go, hsp, hbr, headOkB]

theorem noBrSp_bSub1Go (b : Bool) (cs : List Char) : noBrSp (bSub1Go b cs) = true := by
  induction cs generalizing b with
  | nil => rfl
  | cons c rest ih =>
    by_cases hsp : (b && pyIsSpace c) = true
    · rw [bSub1Go, if_pos hsp]
      exact ih true
    · by_cases hbr : c = '['
      · subst hbr
        rw [bSub1Go, if_neg hsp, if_pos rfl]
        simp [noBrSp, headOkB_bSub1Go_true, ih true]
      · rw [bSub1Go, if_neg hsp, if_neg hbr]
        simp [noBrSp, hbr, ih false]

theorem bSub1Go_true_of_headOk {cs : List Char} (h : headOkB cs = true) :
    bSub1Go true cs = bSub1Go false cs := by
  cases cs with
  | nil => rfl
  | cons c rest =>
    simp only [headOkB, Bool.not_eq_true'] at h
    simp [bSub1Go, h]

theorem bSub1Go_id {cs : List Char} (h : noBrSp cs = true) : bSub1Go false cs = cs := by
  induction cs with
  | nil => rfl
  | cons c rest ih =>
    simp only [noBrSp, Bool.and_eq_true] at h
    by_cases hbr : c = '['
    · subst hbr
      rw [bSub1Go, if_neg (by simp), if_pos rfl,
        bSub1Go_true_of_headOk (by simpa using h.1), ih h.2]
    · rw [bSub1Go, if_neg (by simp), if_neg hbr, ih h.2]

theorem noBrSp_append_right {xs ys : List Char} (h : noBrSp (xs ++ ys) = true) :
    noBrSp ys = true := by
  induction xs with
  | nil => simpa using h
  | cons c xs' ih =>
    rw [List.cons_append, noBrSp, Bool.and_eq_true] at h
    exact ih h.2

theorem noBrSp_space_pre {sp Z : List Char} (hsp : allSpace sp = true) :
    noBrSp (sp ++ Z) = noBrSp Z := by
  induction sp with
  | nil => simp
  | cons c sp' ih =>
    simp only [allSpace, List.all_cons, Bool.and_eq_true] at hsp
    have hne : c ≠ '[' := ne_of_space hsp.1 (by decide)
    rw [List.cons_append, noBrSp, if_neg hne, Bool.true_and]
    exact ih hsp.2

theorem headOk_bSub2Go_nil {rest : List Char} (h : headOkB rest = true) :
    headOkB (bSub2Go [] rest) = true := by
  cases rest with
  | nil => rfl
  | cons r rs =>
    simp only [headOkB, Bool.not_eq_true'] at h
    by_cases hbr : r = ']'
    · subst hbr
      simp [bSub2Go, show pyIsSpace ']' = false from by decide, headOkB]
    · simp [bSub2Go, h, hbr, headOkB]

theorem noBrSp_bSub2Go {cs pend : List Char} (hp : allSpace pend = true)
    (h : noBrSp (pend ++ cs) = true) : noBrSp (bSub2Go pend cs) = true := by
  induction cs generalizing pend with
  | nil =>
    rw [bSub2Go]
    rw [show pend = pend ++ [] from (List.append_nil pend).symm] at h ⊢
    rw [noBrSp_space_pre hp]
    rfl
  | cons c rest ih =>
    by_cases hsp : pyIsSpace c = true
    · rw [bSub2Go, if_pos hsp]
      refine @ih (pend ++ [c]) ?_ ?_
      · simp only [allSpace, List.all_append, Bool.and_eq_true]
        exact ⟨hp, by simp [hsp]⟩
      · rwa [List.append_assoc, List.singleton_append]
    · have hcr : noBrSp (c :: rest) = true := by
        rwa [noBrSp_space_pre hp] at h
      rw [noBrSp, Bool.and_eq_true] at hcr
      by_cases hbr : c = ']'
      · rw [bSub2Go, if_neg hsp, if_pos hbr]
        rw [noBrSp, Bool.and_eq_true]
        refine ⟨by simp, @ih [] rfl (by simpa using hcr.2)⟩
      · rw [bSub2Go, if_neg hsp, if_neg hbr, noBrSp_space_pre hp]
        rw [noBrSp, Bool.and_eq_true]
        constructor
        · by_cases hbb : c = '['
          · subst hbb
            rw [if_pos rfl]
            exact headOk_bSub2Go_nil (by simpa using hcr.1)
          · rw [if_neg hbb]
        · exact @ih [] rfl (by simpa using hcr.2)

theorem noSpBr_allSpace {sp : List Char} (h : allSpace sp = true) :
    noSpBr sp = true := by
  induction sp with
  | nil => rfl
  | cons c sp' ih =>
    simp only [allSpace, List.all_cons, Bool.and_eq_true] at h
    rw [noSpBr, Bool.and_eq_true]
    refine ⟨?_, ih h.2⟩
    cases sp' with
    | nil => simp [headNotClose]
    | cons d rest =>
      simp only [allSpace, List.all_cons, Bool.and_eq_true] at h
      have : d ≠ ']' := ne_of_space h.2.1 (by decide)
      simp [headNotClose, this]

theorem noSpBr_space_prefix_cons {sp X : List Char} {c : Char}
    (hsp : allSpace sp = true) (hc : c ≠ ']') :
    noSpBr (sp ++ c :: X) = noSpBr (c :: X) := by
  induction sp with
  | nil => simp
  | cons s sp' ih =>
    simp only [allSpace, List.all_cons, Bool.and_eq_true] at hsp
    rw [List.cons_append, noSpBr]
    have hnc : headNotClose (sp' ++ c :: X) = true := by
      cases sp' with
      | nil => simp [headNotClose, hc]
      | cons d rest =>
        simp only [allSpace, List.all_cons, Bool.and_eq_true] at hsp
        have : d ≠ ']' := ne_of_space hsp.2.1 (by decide)
        simp [headNotClose, this]
    rw [hnc]
    simp [ih hsp.2]

theorem noSpBr_bSub2Go {cs pend : List Char} (hp : allSpace pend = true) :
    noSpBr (bSub2Go pend cs) = true := by
  induction cs generalizing pend with
  | nil => exact noSpBr_allSpace hp
  | cons c rest ih =>
    by_cases hsp : pyIsSpace c = true
    · rw [bSub2Go, if_pos hsp]
      refine @ih (pend ++ [c]) ?_
      simp only [allSpace, List.all_append, Bool.and_eq_true]
      exact ⟨hp, by simp [hsp]⟩
    · by_cases hbr : c = ']'
      · rw [bSub2Go, if_neg hsp, if_pos hbr]
        rw [noSpBr, Bool.and_eq_true]
        exact ⟨by simp [show pyIsSpace ']' = false from by decide],
          @ih [] rfl⟩
      · rw [bSub2Go, if_neg hsp, if_neg hbr,
          noSpBr_space_prefix_cons hp hbr, noSpBr, Bool.and_eq_true]
        exact ⟨by simp [hsp], @ih [] rfl⟩

theorem noSpBr_pend_close {pend rest : List Char} (hp : allSpace pend = true)
    (hne : pend ≠ []) : noSpBr (pend ++ ']' :: rest) = false := by
  induction pend with
  | nil => exact absurd rfl hne
  | cons c pend' ih =>
    simp only [allSpace, List.all_cons, Bool.and_eq_true] at hp
    rw [List.cons_append, noSpBr]
    cases pend' with
    | nil =>
      simp [headNotClose, hp.1]
    | cons d rest' =>
      rw [ih hp.2 (by simp), Bool.and_false]

theorem bSub2Go_id {cs pend : List Char} (hp : allSpace pend = true)
    (h : noSpBr (pend ++ cs) = true) : bSub2Go pend cs = pend ++ cs := by
  induction cs generalizing pend with
  | nil => simp [bSub2Go]
  | cons c rest ih =>
    by_cases hsp : pyIsSpace c = true
    · rw [bSub2Go, if_pos hsp]
      rw [@ih (pend ++ [c])
        (by simp only [allSpace, List.all_append, Bool.and_eq_true]
            exact ⟨hp, by simp [hsp]⟩)
        (by rwa [List.append_assoc, List.singleton_append])]
      simp
    · by_cases hbr : c = ']'
      · subst hbr
        cases pend with
        | cons p ps => rw [noSpBr_pend_close hp (by simp)] at h; cases h
        | nil =>
          rw [bSub2Go, if_neg hsp, if_pos rfl]
          simp only [List.nil_append] at h ⊢
          rw [noSpBr, Bool.and_eq_true] at h
          rw [@ih [] rfl (by simpa using h.2)]
          simp
      · rw [bSub2Go, if_neg hsp, if_neg hbr]
        have hcr : noSpBr (c :: rest) = true := by
          rwa [noSpBr_space_prefix_cons hp hbr] at h
        rw [noSpBr, Bool.and_eq_true] at hcr
        rw [@ih [] rfl (by simpa using hcr.2)]
        simp

theorem bracketLine_idem (cs : List Char) :
    bracketLine (bracketLine cs) = bracketLine cs := by
  unfold bracketLine
  have h1 : noBrSp (bSub1Go false cs) = true := noBrSp_bSub1Go false cs
  have h2 : noBrSp (bSub2Go [] (bSub1Go false cs)) = true :=
    noBrSp_bSub2Go rfl (by simpa using h1)
  have h3 : noSpBr (bSub2Go [] (bSub1Go false cs)) = true :=
    @noSpBr_bSub2Go _ [] rfl
  rw [bSub1Go_id h2, @bSub2Go_id _ [] rfl (by simpa using h3)]
  simp

/-! # Content-level plumbing: split/join round trips (C2) -/

theorem pySplitNl_ne_nil (cs : List Char) : pySplitNl cs ≠ [] := by
  cases cs with
  | nil => simp [pySplitNl]
  | cons c rest =>
    rw [pySplitNl]
    split
    · simp
    · cases h : pySplitNl rest with
      | nil => simp [consPiece]
      | cons l ls => simp [consPiece]

theorem pySplitNl_no_nl (cs : List Char) : ∀ l ∈ pySplitNl cs, '\n' ∉ l := by
  induction cs with
  | nil => simp [pySplitNl]
  | cons c rest ih =>
    rw [pySplitNl]
    by_cases hc : c = '\n'
    · rw [if_pos hc]
      intro l' hl'
      rcases List.mem_cons.1 hl' with h1 | h2
      · subst h1; simp
      · exact ih l' h2
    · rw [if_neg hc]
      cases hr : pySplitNl rest with
      | nil => exact absurd hr (pySplitNl_ne_nil rest)
      | cons l ls =>
        rw [hr] at ih
        intro l' hl'
        rw [consPiece] at hl'
        rcases List.mem_cons.1 hl' with h1 | h2
        · subst h1
          intro hmem
          rcases List.mem_cons.1 hmem with h3 | h4
          · exact hc h3.symm
          · exact ih l (List.mem_cons_self l ls) h4
        · exact ih l' (List.mem_cons_of_mem l h2)

theorem pySplitNl_no_nl_eq {l : List Char} (h : '\n' ∉ l) : pySplitNl l = [l] := by
  induction l with
  | nil => rfl
  | cons c l' ih =>
    have hc : c ≠ '\n' := fun he => h (he ▸ List.mem_cons_self c l')
    have hl' : '\n' ∉ l' := fun hm => h (List.mem_cons_of_mem c hm)
    rw [pySplitNl, if_neg hc, ih hl', consPiece]

theorem pySplitNl_pre {l X : List Char} (h : '\n' ∉ l) :
    pySplitNl (l ++ '\n' :: X) = l :: pySplitNl X := by
  induction l with
  | nil => rw [List.nil_append, pySplitNl, if_pos rfl]
  | cons c l' ih =>
    have hc : c ≠ '\n' := fun he => h (he ▸ List.mem_cons_self c l')
    have hl' : '\n' ∉ l' := fun hm => h (List.mem_cons_of_mem c hm)
    rw [List.cons_append, pySplitNl, if_neg hc, ih hl', consPiece]

theorem pyJoinNl_split {ls : List (List Char)} (hne : ls ≠ [])
    (h : ∀ l ∈ ls, '\n' ∉ l) : pySplitNl (pyJoinNl ls) = ls := by
  induction ls with
  | nil => exact absurd rfl hne
  | cons l ls' ih =>
    cases ls' with
    | nil =>
      rw [pyJoinNl]
      exact pySplitNl_no_nl_eq (h l (List.mem_cons_self l []))
    | cons m ms =>
      have hjoin : pyJoinNl (l :: m :: ms) = l ++ '\n' :: pyJoinNl (m :: ms) := rfl
      rw [hjoin, pySplitNl_pre (h l (List.mem_cons_self l _)),
        ih (List.cons_ne_nil m ms) (fun q hq => h q (List.mem_cons_of_mem l hq))]

theorem String_data_mk (cs : List Char) : (String.mk cs).data = cs := rfl

theorem mapIdx_const_true (f : List Char → List Char) :
    ∀ (i : Nat) (ls : List (List Char)),
      mapIdxLines (fun _ => true) f i ls = ls.map f := by
  intro i ls
  induction ls generalizing i with
  | nil => rfl
  | cons l ls' ih => rw [mapIdxLines, List.map_cons, if_pos rfl, ih]

theorem fixmap_idem (f : List Char → List Char)
    (hidem : ∀ l, f (f l) = f l)
    (hnl : ∀ l, '\n' ∉ l → '\n' ∉ f l) (content : String) :
    String.mk (pyJoinNl (mapIdxLines (fun _ => true) f 0
        (pySplitNl (String.mk (pyJoinNl (mapIdxLines (fun _ => true) f 0
          (pySplitNl content.data)))).data)))
      = String.mk (pyJoinNl (mapIdxLines (fun _ => true) f 0
          (pySplitNl content.data))) := by
  simp only [mapIdx_const_true, String_data_mk]
  rw [pyJoinNl_split
    (fun hx => pySplitNl_ne_nil content.data (List.map_eq_nil.1 hx))
    (by
      intro q hq
      obtain ⟨l, hl, rfl⟩ := List.mem_map.1 hq
      exact hnl l (pySplitNl_no_nl content.data l hl))]
  rw [List.map_map, show f ∘ f = f from funext hidem]

theorem bSub1Go_nl {cs : List Char} (b : Bool) (h : '\n' ∉ cs) :
    '\n' ∉ bSub1Go b cs := by
  induction cs generalizing b with
  | nil => simp [bSub1Go]
  | cons c rest ih =>
    have hc : '\n' ≠ c := fun he => h (he ▸ List.mem_cons_self c rest)
    have hr : '\n' ∉ rest := fun hm => h (List.mem_cons_of_mem c hm)
    rw [bSub1Go]
    split
    · exact ih true hr
    · split
      · intro hmem
        rcases List.mem_cons.1 hmem with h1 | h2
        · cases h1
        · exact ih true hr h2
      · intro hmem
        rcases List.mem_cons.1 hmem with h1 | h2
        · exact hc h1
        · exact ih false hr h2

theorem bSub2Go_nl {cs pend : List Char} (hp : '\n' ∉ pend) (h : '\n' ∉ cs) :
    '\n' ∉ bSub2Go pend cs := by
  induction cs generalizing pend with
  | nil => simpa [bSub2Go] using hp
  | cons c rest ih =>
    have hc : '\n' ≠ c := fun he => h (he ▸ List.mem_cons_self c rest)
    have hr : '\n' ∉ rest := fun hm => h (List.mem_cons_of_mem c hm)
    rw [bSub2Go]
    split
    · refine ih ?_ hr
      intro hmem
      rcases List.mem_append.1 hmem with h1 | h2
      · exact hp h1
      · simp at h2
        exact hc h2
    · split
      · intro hmem
        rcases List.mem_cons.1 hmem with h1 | h2
        · cases h1
        · exact ih (by simp) hr h2
      · intro hmem
        rcases List.mem_append.1 hmem with h1 | h2
        · exact hp h1
        · rcases List.mem_cons.1 h2 with h3 | h4
          · exact hc h3
          · exact ih (by simp) hr h4

theorem bracketLine_nl {cs : List Char} (h : '\n' ∉ cs) : '\n' ∉ bracketLine cs :=
  bSub2Go_nl (by simp) (bSub1Go_nl false h)

theorem truthyFold_nl {B : List (List Char × List Char)} {cs : List Char}
    (hB : ∀ pr ∈ B, '\n' ∉ pr.2) (h : '\n' ∉ cs) :
    '\n' ∉ B.foldl (fun cur pr => truthySub pr.1 pr.2 cur) cs := by
  induction B generalizing cs with
  | nil => simpa using h
  | cons pr ps ih =>
    rw [List.foldl_cons]
    exact ih (fun q hq => hB q (List.mem_cons_of_mem pr hq))
      (truthySub_nl h (hB pr (List.mem_cons_self pr ps)))

theorem truthyLine_nl {cs : List Char} (h : '\n' ∉ cs) : '\n' ∉ truthyLine cs :=
  truthyFold_nl (by decide) h

/-! ## Idempotence of `fix_ignore_errors` -/

theorem igTrigger_decomp {l : List Char} (h : igTrigger l = true) :
    ∃ tail, l = takeSpace l ++ "ignore_errors:".data ++ tail := by
  simp only [igTrigger] at h
  cases hdl : dropLit (dropSpace l) "ignore_errors:".data with
  | none => rw [hdl] at h; simp at h
  | some r =>
    refine ⟨r, ?_⟩
    have h1 := dropLit_sound hdl
    have h2 : takeSpace l ++ dropSpace l = l := List.takeWhile_append_dropWhile pyIsSpace l
    conv_lhs => rw [← h2, h1]
    exact (List.append_assoc _ _ _).symm

theorem pyReplaceAllF_cons_match {pat rep : List Char} (fuel : Nat) {c : Char}
    {rest : List Char} (hm : pyStartsWith (c :: rest) pat = true) :
    pyReplaceAllF pat rep (fuel + 1) (c :: rest)
      = rep ++ pyReplaceAllF pat rep fuel ((c :: rest).drop pat.length) := by
  rw [pyReplaceAllF, if_pos hm]

theorem pyReplaceAllF_cons_nomatch {pat rep : List Char} (fuel : Nat) {c : Char}
    {rest : List Char} (hm : pyStartsWith (c :: rest) pat = false) :
    pyReplaceAllF pat rep (fuel + 1) (c :: rest)
      = c :: pyReplaceAllF pat rep fuel rest := by
  rw [pyReplaceAllF, if_neg (by simp [hm])]

theorem replaceIg_shape (rep : List Char) :
    ∀ (sp : List Char) (fuel : Nat) (tail : List Char), allSpace sp = true →
      sp.length + tail.length + 15 ≤ fuel →
      ∃ t2, pyReplaceAllF "ignore_errors:".data rep fuel
          (sp ++ "ignore_errors:".data ++ tail) = sp ++ rep ++ t2 := by
  intro sp
  induction sp with
  | nil =>
    intro fuel tail _ hfuel
    obtain ⟨f, rfl⟩ : ∃ f, fuel = f + 1 := ⟨fuel - 1, by omega⟩
    simp only [List.nil_append]
    refine ⟨pyReplaceAllF "ignore_errors:".data rep f tail, ?_⟩
    have hm : pyStartsWith ("ignore_errors:".data ++ tail) "ignore_errors:".data = true :=
      pyStartsWith_self_append _ _
    have hdrop : ("ignore_errors:".data ++ tail).drop ("ignore_errors:".data).length = tail :=
      List.drop_left _ _
    rw [show ("ignore_errors:".data ++ tail : List Char)
        = 'i' :: ("gnore_errors:".data ++ tail) from rfl] at hm hdrop ⊢
    rw [pyReplaceAllF_cons_match f hm, hdrop]
  | cons c sp' ih =>
    intro fuel tail hsp hfuel
    obtain ⟨f, rfl⟩ : ∃ f, fuel = f + 1 := ⟨fuel - 1, by omega⟩
    simp only [allSpace, List.all_cons, Bool.and_eq_true] at hsp
    have hc : pyIsSpace c = true := hsp.1
    have hsp' : allSpace sp' = true := hsp.2
    have hcne : c ≠ 'i' := by
      intro he
      rw [he] at hc
      exact absurd hc (by decide)
    rw [List.cons_append, List.cons_append]
    have hnm : pyStartsWith (c :: (sp' ++ "ignore_errors:".data ++ tail))
        "ignore_errors:".data = false := by
      rw [show ("ignore_errors:".data : List Char) = 'i' :: "gnore_errors:".data from rfl,
        pyStartsWith]
      simp [hcne]
    rw [pyReplaceAllF_cons_nomatch f hnm]
    obtain ⟨t2, ht2⟩ := ih f tail hsp' (by simp at hfuel ⊢; omega)
    refine ⟨t2, ?_⟩
    rw [ht2]
    simp

theorem igConvLine_decomp {l : List Char} (h : igTrigger l = true) :
    ∃ t2, igConvLine l
      = takeSpace l ++ "# TODO: Review - was ignore_errors:".data ++ t2 := by
  obtain ⟨tail, hl⟩ := igTrigger_decomp h
  have hsp : allSpace (takeSpace l) = true := takeWhile_all pyIsSpace l
  have hlen14 : ("ignore_errors:".data : List Char).length = 14 := rfl
  have hlenl : l.length = (takeSpace l).length + 14 + tail.length := by
    conv_lhs => rw [hl]
    simp [List.length_append]
    omega
  have hlen : (takeSpace l).length + tail.length + 15 ≤ l.length + 1 := by omega
  obtain ⟨t2, ht2⟩ := replaceIg_shape "# TODO: Review - was ignore_errors:".data
    (takeSpace l) (l.length + 1) tail hsp hlen
  rw [← hl] at ht2
  exact ⟨t2, ht2⟩

theorem igTrigger_stripNonEmpty {l : List Char} (h : igTrigger l = true) :
    stripNonEmpty l = true := by
  obtain ⟨tail, hl⟩ := igTrigger_decomp h
  rw [hl]
  refine List.any_eq_true.2 ⟨'i', ?_, by decide⟩
  exact List.mem_append.2 (Or.inl (List.mem_append.2 (Or.inr (by decide))))

theorem igTrigger_not_fw {l : List Char} (h : igTrigger l = true) :
    isFWLine l = false := by
  obtain ⟨tail, hl⟩ := igTrigger_decomp h
  have hsp : allSpace (takeSpace l) = true := takeWhile_all pyIsSpace l
  have hl' : l = takeSpace l ++ ("ignore_errors:".data ++ tail) := by
    conv_lhs => rw [hl]
    exact List.append_assoc _ _ _
  have hhead : headFails pyIsSpace ("ignore_errors:".data ++ tail) := by
    rw [show ("ignore_errors:".data : List Char) = 'i' :: "gnore_errors:".data from rfl,
      List.cons_append]
    exact (by decide : pyIsSpace 'i' = false)
  have hdec := dropSpace_decomp hsp hhead
  have hds : dropSpace l = "ignore_errors:".data ++ tail := by
    conv_lhs => rw [hl']
    exact hdec.2
  rw [isFWLine, hds,
    show ("ignore_errors:".data : List Char) = 'i' :: "gnore_errors:".data from rfl,
    show ("failed_when:".data : List Char) = 'f' :: "ailed_when:".data from rfl,
    List.cons_append, pyStartsWith]
  simp

theorem igConvLine_props {l : List Char} (h : igTrigger l = true) :
    pyIndent (igConvLine l) = pyIndent l ∧ igTrigger (igConvLine l) = false ∧
      isFWLine (igConvLine l) = false := by
  obtain ⟨t2, ht2⟩ := igConvLine_decomp h
  have hsp : allSpace (takeSpace l) = true := takeWhile_all pyIsSpace l
  have ht2' : igConvLine l
      = takeSpace l ++ ("# TODO: Review - was ignore_errors:".data ++ t2) := by
    rw [ht2, List.append_assoc]
  have hhead : headFails pyIsSpace ("# TODO: Review - was ignore_errors:".data ++ t2) := by
    rw [show ("# TODO: Review - was ignore_errors:".data : List Char)
        = '#' :: " TODO: Review - was ignore_errors:".data from rfl, List.cons_append]
    exact (by decide : pyIsSpace '#' = false)
  have hdec := dropSpace_decomp hsp hhead
  have hds : dropSpace (igConvLine l)
      = "# TODO: Review - was ignore_errors:".data ++ t2 := by
    conv_lhs => rw [ht2']
    exact hdec.2
  have hts : takeSpace (igConvLine l) = takeSpace l := by
    conv_lhs => rw [ht2']
    exact hdec.1
  refine ⟨?_, ?_, ?_⟩
  · simp only [pyIndent, hts]
  · have hnone : dropLit (dropSpace (igConvLine l)) "ignore_errors:".data = none := by
      rw [hds,
        show ("# TODO: Review - was ignore_errors:".data : List Char)
          = '#' :: " TODO: Review - was ignore_errors:".data from rfl,
        show ("ignore_errors:".data : List Char) = 'i' :: "gnore_errors:".data from rfl,
        List.cons_append, dropLit]
      rw [if_neg (by decide)]
    simp only [igTrigger, hnone]
  · rw [isFWLine, hds,
      show ("# TODO: Review - was ignore_errors:".data : List Char)
        = '#' :: " TODO: Review - was ignore_errors:".data from rfl,
      show ("failed_when:".data : List Char) = 'f' :: "ailed_when:".data from rfl,
      List.cons_append, pyStartsWith]
    simp

theorem igFwLine_facts (ind : Nat) :
    pyIndent (igFwLine ind) = ind ∧ isFWLine (igFwLine ind) = true ∧
      igTrigger (igFwLine ind) = false ∧ '\n' ∉ igFwLine ind := by
  have hsp : allSpace (List.replicate ind ' ') = true := by
    simp only [allSpace, List.all_eq_true]
    intro c hc
    rw [List.eq_of_mem_replicate hc]
    decide
  have hhead : headFails pyIsSpace
      ("failed_when: false  # Always succeed - review this condition".data) := by
    rw [show ("failed_when: false  # Always succeed - review this condition".data : List Char)
        = 'f' :: "ailed_when: false  # Always succeed - review this condition".data from rfl]
    exact (by decide : pyIsSpace 'f' = false)
  have hdec := dropSpace_decomp hsp hhead
  have hds : dropSpace (igFwLine ind)
      = "failed_when: false  # Always succeed - review this condition".data := hdec.2
  have hts : takeSpace (igFwLine ind) = List.replicate ind ' ' := hdec.1
  refine ⟨?_, ?_, ?_, ?_⟩
  · simp only [pyIndent, hts, List.length_replicate]
  · rw [isFWLine, hds]
    decide
  · have hnone : dropLit (dropSpace (igFwLine ind)) "ignore_errors:".data = none := by
      rw [hds]
      decide
    simp only [igTrigger, hnone]
  · intro hmem
    rcases List.mem_append.1 hmem with h1 | h2
    · exact absurd (List.eq_of_mem_replicate h1) (by decide)
    · exact absurd h2 (by decide)

theorem pyReplaceAllF_nl {pat rep : List Char} (hrep : '\n' ∉ rep) :
    ∀ (fuel : Nat) (cs : List Char), '\n' ∉ cs → '\n' ∉ pyReplaceAllF pat rep fuel cs := by
  intro fuel
  induction fuel with
  | zero => intro cs h; simpa [pyReplaceAllF] using h
  | succ f ih =>
    intro cs h
    cases cs with
    | nil => simp [pyReplaceAllF]
    | cons c rest =>
      rw [pyReplaceAllF]
      split
      · intro hmem
        rcases List.mem_append.1 hmem with h1 | h2
        · exact hrep h1
        · exact ih _ (fun hm => h (List.mem_of_mem_drop hm)) h2
      · intro hmem
        rcases List.mem_cons.1 hmem with h1 | h2
        · exact h (h1 ▸ List.mem_cons_self c rest)
        · exact ih rest (fun hm => h (List.mem_cons_of_mem c hm)) h2

theorem igConvLine_nl {l : List Char} (h : '\n' ∉ l) : '\n' ∉ igConvLine l :=
  pyReplaceAllF_nl (by decide) _ l h

theorem scanFW_preserved {ind : Nat} : ∀ {rest : List (List Char)} (fuel : Nat),
    scanFW ind fuel rest = true → scanFW ind fuel (igGo rest) = true := by
  intro rest
  induction rest with
  | nil =>
    intro fuel h
    cases fuel <;> simp [scanFW] at h
  | cons l rs ih =>
    intro fuel h
    cases fuel with
    | zero => simp [scanFW] at h
    | succ f =>
      rw [scanFW] at h
      by_cases hbr : igBreak ind l = true
      · rw [if_pos (by simp [hbr])] at h
        exact absurd h (by simp)
      · rw [if_neg (by simp [hbr])] at h
        by_cases hfw : isFWLine l = true
        · have htrig : igTrigger l = false := by
            by_contra hc
            have hnf := igTrigger_not_fw (by simpa using hc)
            simp [hnf] at hfw
          rw [igGo, if_neg (by simp [htrig])]
          rw [scanFW, if_neg (by simp [hbr]), if_pos (by simp [hfw])]
        · rw [if_neg (by simp [hfw])] at h
          by_cases htrig : igTrigger l = true
          · by_cases hsc : scanFW (pyIndent l) 9 rs = true
            · rw [igGo, if_pos (by simp [htrig]), if_pos (by simp [hsc])]
              rw [scanFW, if_neg (by simp [hbr]), if_neg (by simp [hfw])]
              exact ih f h
            · rw [igGo, if_pos (by simp [htrig]), if_neg (by simp [hsc])]
              obtain ⟨hci, hct, hcf⟩ := igConvLine_props htrig
              have hne_lt : ¬ (pyIndent l < ind) := by
                have hse := igTrigger_stripNonEmpty htrig
                intro hlt
                exact hbr (by simp [igBreak, hlt, hse])
              have hbrc : igBreak ind (igConvLine l) = false := by
                simp [igBreak, hci, hne_lt]
              rw [scanFW, if_neg (by simp [hbrc]), if_neg (by simp [hcf])]
              cases f with
              | zero => simp [scanFW] at h
              | succ ff =>
                obtain ⟨hfi, hff, hft, hfn⟩ := igFwLine_facts (pyIndent l)
                have hbrf : igBreak ind (igFwLine (pyIndent l)) = false := by
                  simp [igBreak, hfi, hne_lt]
                rw [scanFW, if_neg (by simp [hbrf]), if_pos (by simp [hff])]
          · rw [igGo, if_neg (by simp [htrig])]
            rw [scanFW, if_neg (by simp [hbr]), if_neg (by simp [hfw])]
            exact ih f h

theorem igGo_ne_nil {ls : List (List Char)} (h : ls ≠ []) : igGo ls ≠ [] := by
  cases ls with
  | nil => exact absurd rfl h
  | cons l rs =>
    rw [igGo]
    split
    · split <;> simp
    · simp

theorem igGo_no_nl {ls : List (List Char)} (h : ∀ l ∈ ls, '\n' ∉ l) :
    ∀ l ∈ igGo ls, '\n' ∉ l := by
  induction ls with
  | nil => simpa [igGo] using h
  | cons l rs ih =>
    have hl := h l (List.mem_cons_self l rs)
    have hrs : ∀ m ∈ rs, '\n' ∉ m := fun m hm => h m (List.mem_cons_of_mem l hm)
    rw [igGo]
    split
    · split
      · intro m hm
        rcases List.mem_cons.1 hm with h1 | h2
        · exact h1 ▸ hl
        · exact ih hrs m h2
      · intro m hm
        rcases List.mem_cons.1 hm with h1 | h2
        · exact h1 ▸ igConvLine_nl hl
        · rcases List.mem_cons.1 h2 with h3 | h4
          · exact h3 ▸ (igFwLine_facts (pyIndent l)).2.2.2
          · exact ih hrs m h4
    · intro m hm
      rcases List.mem_cons.1 hm with h1 | h2
      · exact h1 ▸ hl
      · exact ih hrs m h2

theorem igGo_idem (ls : List (List Char)) : igGo (igGo ls) = igGo ls := by
  induction ls with
  | nil => rfl
  | cons l rs ih =>
    by_cases htrig : igTrigger l = true
    · by_cases hsc : scanFW (pyIndent l) 9 rs = true
      · rw [igGo, if_pos (by simp [htrig]), if_pos (by simp [hsc])]
        rw [igGo, if_pos (by simp [htrig]), if_pos (by simp [scanFW_preserved 9 hsc]), ih]
      · rw [igGo, if_pos (by simp [htrig]), if_neg (by simp [hsc])]
        have hct : igTrigger (igConvLine l) = false := (igConvLine_props htrig).2.1
        have hft : igTrigger (igFwLine (pyIndent l)) = false := (igFwLine_facts _).2.2.1
        rw [igGo, if_neg (by simp [hct]), igGo, if_neg (by simp [hft]), ih]
    · rw [igGo, if_neg (by simp [htrig])]
      rw [igGo, if_neg (by simp [htrig]), ih]

theorem fix_ignore_errors_idem (content : String) :
    fix_ignore_errors (fix_ignore_errors content) = fix_ignore_errors content := by
  simp only [fix_ignore_errors, String_data_mk]
  rw [pyJoinNl_split (igGo_ne_nil (pySplitNl_ne_nil _)) (igGo_no_nl (pySplitNl_no_nl _)),
    igGo_idem]

/-- C2 (amended): with the change-scope filter inactive, the bracket-spacing,
boolean-literal and ignore-errors transforms are idempotent on arbitrary
content: applying each twice yields the same result as applying it once. -/
theorem fix_transforms_idem (content : String) :
    fix_yaml_brackets (fun _ => true) (fix_yaml_brackets (fun _ => true) content)
      = fix_yaml_brackets (fun _ => true) content ∧
    fix_yaml_truthy (fun _ => true) (fix_yaml_truthy (fun _ => true) content)
      = fix_yaml_truthy (fun _ => true) content ∧
    fix_ignore_errors (fix_ignore_errors content) = fix_ignore_errors content := by
  refine ⟨?_, ?_, fix_ignore_errors_idem content⟩
  · simp only [fix_yaml_brackets]
    exact fixmap_idem bracketLine bracketLine_idem (fun l => bracketLine_nl) content
  · simp only [fix_yaml_truthy]
    exact fixmap_idem truthyLine truthyLine_idem (fun l => truthyLine_nl) content

/-- C2 counterexample: the Jinja pipe-spacing, module-qualification and
role-path transforms are not idempotent — on each exhibited input a second
application changes the output again. -/
theorem fix_transforms_not_idem :
    fix_jinja_spacing (fun _ => true)
        (fix_jinja_spacing (fun _ => true) "\x7b\x7ba|b|c\x7d\x7d")
      ≠ fix_jinja_spacing (fun _ => true) "\x7b\x7ba|b|c\x7d\x7d" ∧
    fix_fqcn (fun _ => true)
        (fix_fqcn (fun _ => true) "- name: t\n  apt: x\n  copy: y")
      ≠ fix_fqcn (fun _ => true) "- name: t\n  apt: x\n  copy: y" ∧
    fix_role_path (fun _ => true)
        (fix_role_path (fun _ => true) "name: ../roles/../roles/../roles/foo")
      ≠ fix_role_path (fun _ => true) "name: ../roles/../roles/../roles/foo" := by
  refine ⟨?_, ?_, ?_⟩ <;> decide

/-! ## `fix_fqcn`: at most one rewrite per task block (C5) -/

theorem fqcnGo_step_name {l : List Char} (rest : List (List Char)) (b : Bool) (i : Nat)
    (h : isTaskName l = true) :
    fqcnGo (fun _ => true) b i (l :: rest)
      = l :: fqcnGo (fun _ => true) true (i + 1) rest := by
  simp [fqcnGo, h]

theorem fqcnGo_step_out {l : List Char} (rest : List (List Char)) (i : Nat)
    (h : isTaskName l = false) :
    fqcnGo (fun _ => true) false i (l :: rest)
      = l :: fqcnGo (fun _ => true) false (i + 1) rest := by
  simp [fqcnGo, h]

theorem fqcnGo_step_rw {l l' : List Char} (rest : List (List Char)) (i : Nat)
    (hn : isTaskName l = false) (hr : fqcnRewrite l = some l') :
    fqcnGo (fun _ => true) true i (l :: rest)
      = l' :: fqcnGo (fun _ => true) false (i + 1) rest := by
  simp [fqcnGo, hn, hr]

theorem fqcnGo_step_stay {l : List Char} (rest : List (List Char)) (i : Nat)
    (hn : isTaskName l = false) (hp : isTaskOrPlay l = false)
    (hr : fqcnRewrite l = none) :
    fqcnGo (fun _ => true) true i (l :: rest)
      = l :: fqcnGo (fun _ => true) true (i + 1) rest := by
  simp [fqcnGo, hn, hp, hr]

theorem fqcnGo_step_close {l : List Char} (rest : List (List Char)) (i : Nat)
    (hn : isTaskName l = false) (hp : isTaskOrPlay l = true)
    (hr : fqcnRewrite l = none) :
    fqcnGo (fun _ => true) true i (l :: rest)
      = l :: fqcnGo (fun _ => true) false (i + 1) rest := by
  simp [fqcnGo, hn, hp, hr]

theorem fqcnGo_length (e : Nat → Bool) :
    ∀ (ls : List (List Char)) (b : Bool) (i : Nat),
      (fqcnGo e b i ls).length = ls.length := by
  intro ls
  induction ls with
  | nil => intro b i; rfl
  | cons l rest ih =>
    intro b i
    rw [fqcnGo]
    split
    · simp [ih]
    · split
      · simp [ih]
      · split
        · simp [ih]
        · split <;> simp [ih]

theorem fqcnGoverned_shift {l o : List Char} {ls out : List (List Char)} {m : Nat}
    (h : fqcnGoverned ls out m) : fqcnGoverned (l :: ls) (o :: out) (m + 1) := by
  simp only [fqcnGoverned, fqcnUntouched] at h ⊢
  obtain ⟨k, kl, hk, hkl, hkn, hbet⟩ := h
  refine ⟨k + 1, kl, by omega, by simpa using hkl, hkn, ?_⟩
  intro m' ml om hm'k hm'j hml hom
  cases m' with
  | zero => exact absurd hm'k (by omega)
  | succ m'' =>
    rw [List.getElem?_cons_succ] at hml hom
    exact hbet m'' ml om (by omega) (by omega) hml hom

theorem fqcnGoverned_of_clean {l o : List Char} {ls out : List (List Char)} {m : Nat}
    (hn : isTaskName l = true) (h : fqcnCleanPrefix ls out m) :
    fqcnGoverned (l :: ls) (o :: out) (m + 1) := by
  simp only [fqcnCleanPrefix] at h
  simp only [fqcnGoverned, fqcnUntouched]
  refine ⟨0, l, Nat.succ_pos m, List.getElem?_cons_zero, hn, ?_⟩
  intro m' ml om hm'0 hm'j hml hom
  cases m' with
  | zero => exact absurd hm'0 (by omega)
  | succ m'' =>
    rw [List.getElem?_cons_succ] at hml hom
    exact h m'' ml om (by omega) hml hom

theorem fqcnCleanPrefix_zero (ls out : List (List Char)) : fqcnCleanPrefix ls out 0 := by
  intro m ml om hm _ _
  exact absurd hm (by omega)

theorem fqcnCleanPrefix_cons {l : List Char} {ls out : List (List Char)} {m : Nat}
    (hp : isTaskOrPlay l = false) (hr : fqcnRewrite l = none)
    (h : fqcnCleanPrefix ls out m) : fqcnCleanPrefix (l :: ls) (l :: out) (m + 1) := by
  simp only [fqcnCleanPrefix] at h ⊢
  intro m' ml om hm'j hml hom
  cases m' with
  | zero =>
    simp only [List.getElem?_cons_zero, Option.some.injEq] at hml hom
    subst hml
    subst hom
    exact ⟨rfl, hp, hr⟩
  | succ m'' =>
    rw [List.getElem?_cons_succ] at hml hom
    exact h m'' ml om (by omega) hml hom

theorem fqcnGo_main : ∀ (ls : List (List Char)) (i : Nat),
    (∀ j lj oj, ls[j]? = some lj →
        (fqcnGo (fun _ => true) false i ls)[j]? = some oj → oj ≠ lj →
        isTaskName lj = false ∧ fqcnRewrite lj = some oj ∧
          fqcnGoverned ls (fqcnGo (fun _ => true) false i ls) j) ∧
    (∀ j lj oj, ls[j]? = some lj →
        (fqcnGo (fun _ => true) true i ls)[j]? = some oj → oj ≠ lj →
        isTaskName lj = false ∧ fqcnRewrite lj = some oj ∧
          (fqcnCleanPrefix ls (fqcnGo (fun _ => true) true i ls) j ∨
            fqcnGoverned ls (fqcnGo (fun _ => true) true i ls) j)) := by
  intro ls
  induction ls with
  | nil =>
    intro i
    constructor <;> · intro j lj oj hlj _ _; simp at hlj
  | cons l rest ih =>
    intro i
    constructor
    · by_cases hn : isTaskName l = true
      · have hout := fqcnGo_step_name rest false i hn
        intro j lj oj hlj hoj hne
        rw [hout] at hoj ⊢
        cases j with
        | zero =>
          rw [List.getElem?_cons_zero] at hlj hoj
          exact absurd ((Option.some.inj hoj).symm.trans (Option.some.inj hlj)) hne
        | succ m =>
          rw [List.getElem?_cons_succ] at hlj hoj
          obtain ⟨h1, h2, h3⟩ := (ih (i + 1)).2 m lj oj hlj hoj hne
          refine ⟨h1, h2, ?_⟩
          rcases h3 with hclean | hgov
          · exact fqcnGoverned_of_clean hn hclean
          · exact fqcnGoverned_shift hgov
      · have hn' : isTaskName l = false := by simpa using hn
        have hout := fqcnGo_step_out rest i hn'
        intro j lj oj hlj hoj hne
        rw [hout] at hoj ⊢
        cases j with
        | zero =>
          rw [List.getElem?_cons_zero] at hlj hoj
          exact absurd ((Option.some.inj hoj).symm.trans (Option.some.inj hlj)) hne
        | succ m =>
          rw [List.getElem?_cons_succ] at hlj hoj
          obtain ⟨h1, h2, h3⟩ := (ih (i + 1)).1 m lj oj hlj hoj hne
          exact ⟨h1, h2, fqcnGoverned_shift h3⟩
    · by_cases hn : isTaskName l = true
      · have hout := fqcnGo_step_name rest true i hn
        intro j lj oj hlj hoj hne
        rw [hout] at hoj ⊢
        cases j with
        | zero =>
          rw [List.getElem?_cons_zero] at hlj hoj
          exact absurd ((Option.some.inj hoj).symm.trans (Option.some.inj hlj)) hne
        | succ m =>
          rw [List.getElem?_cons_succ] at hlj hoj
          obtain ⟨h1, h2, h3⟩ := (ih (i + 1)).2 m lj oj hlj hoj hne
          refine ⟨h1, h2, Or.inr ?_⟩
          rcases h3 with hclean | hgov
          · exact fqcnGoverned_of_clean hn hclean
          · exact fqcnGoverned_shift hgov
      · have hn' : isTaskName l = false := by simpa using hn
        cases hr : fqcnRewrite l with
        | some l' =>
          have hout := fqcnGo_step_rw rest i hn' hr
          intro j lj oj hlj hoj hne
          rw [hout] at hoj ⊢
          cases j with
          | zero =>
            rw [List.getElem?_cons_zero] at hlj hoj
            have hl : l = lj := Option.some.inj hlj
            have ho : l' = oj := Option.some.inj hoj
            refine ⟨?_, ?_, Or.inl (fqcnCleanPrefix_zero _ _)⟩
            · rw [← hl]; exact hn'
            · rw [← hl, ← ho]; exact hr
          | succ m =>
            rw [List.getElem?_cons_succ] at hlj hoj
            obtain ⟨h1, h2, h3⟩ := (ih (i + 1)).1 m lj oj hlj hoj hne
            exact ⟨h1, h2, Or.inr (fqcnGoverned_shift h3)⟩
        | none =>
          by_cases hp : isTaskOrPlay l = true
          · have hout := fqcnGo_step_close rest i hn' hp hr
            intro j lj oj hlj hoj hne
            rw [hout] at hoj ⊢
            cases j with
            | zero =>
              rw [List.getElem?_cons_zero] at hlj hoj
              exact absurd ((Option.some.inj hoj).symm.trans (Option.some.inj hlj)) hne
            | succ m =>
              rw [List.getElem?_cons_succ] at hlj hoj
              obtain ⟨h1, h2, h3⟩ := (ih (i + 1)).1 m lj oj hlj hoj hne
              exact ⟨h1, h2, Or.inr (fqcnGoverned_shift h3)⟩
          · have hp' : isTaskOrPlay l = false := by simpa using hp
            have hout := fqcnGo_step_stay rest i hn' hp' hr
            intro j lj oj hlj hoj hne
            rw [hout] at hoj ⊢
            cases j with
            | zero =>
              rw [List.getElem?_cons_zero] at hlj hoj
              exact absurd ((Option.some.inj hoj).symm.trans (Option.some.inj hlj)) hne
            | succ m =>
              rw [List.getElem?_cons_succ] at hlj hoj
              obtain ⟨h1, h2, h3⟩ := (ih (i + 1)).2 m lj oj hlj hoj hne
              refine ⟨h1, h2, ?_⟩
              rcases h3 with hclean | hgov
              · exact Or.inl (fqcnCleanPrefix_cons hp' hr hclean)
              · exact Or.inr (fqcnGoverned_shift hgov)

/-- C5: with every line eligible, `fix_fqcn` renders the line list produced
by `fqcnGo`, which preserves the number of lines, and any line it changes
is a non-task-name line rewritten to its fully-qualified form
(`fqcnRewrite`) governed by a strictly earlier `- name:` opener with no
intervening task/play marker, rewrite, or rewritable line; consequently
between any two changed lines there is a task-name line, so each task
block has at most one rewrite — the first rewritable line of the block. -/
theorem fix_fqcn_block_spec (content : String) :
    fix_fqcn (fun _ => true) content
      = String.mk (pyJoinNl (fqcnGo (fun _ => true) false 0 (pySplitNl content.data))) ∧
    (fqcnGo (fun _ => true) false 0 (pySplitNl content.data)).length
      = (pySplitNl content.data).length ∧
    (∀ j lj oj, (pySplitNl content.data)[j]? = some lj →
        (fqcnGo (fun _ => true) false 0 (pySplitNl content.data))[j]? = some oj →
        oj ≠ lj →
        isTaskName lj = false ∧ fqcnRewrite lj = some oj ∧
          fqcnGoverned (pySplitNl content.data)
            (fqcnGo (fun _ => true) false 0 (pySplitNl content.data)) j) ∧
    (∀ j1 j2 l1 o1 l2 o2, j1 < j2 →
        (pySplitNl content.data)[j1]? = some l1 →
        (fqcnGo (fun _ => true) false 0 (pySplitNl content.data))[j1]? = some o1 →
        (pySplitNl content.data)[j2]? = some l2 →
        (fqcnGo (fun _ => true) false 0 (pySplitNl content.data))[j2]? = some o2 →
        o1 ≠ l1 → o2 ≠ l2 →
        ∃ (b : Nat) (bl : List Char), j1 < b ∧ b < j2 ∧
          (pySplitNl content.data)[b]? = some bl ∧ isTaskName bl = true) := by
  refine ⟨rfl, fqcnGo_length _ _ _ _, (fqcnGo_main (pySplitNl content.data) 0).1, ?_⟩
  intro j1 j2 l1 o1 l2 o2 hlt hl1 ho1 hl2 ho2 hne1 hne2
  obtain ⟨hn2, _, hgov⟩ := (fqcnGo_main (pySplitNl content.data) 0).1 j2 l2 o2 hl2 ho2 hne2
  obtain ⟨hn1, _, _⟩ := (fqcnGo_main (pySplitNl content.data) 0).1 j1 l1 o1 hl1 ho1 hne1
  simp only [fqcnGoverned, fqcnUntouched] at hgov
  obtain ⟨k, kl, hk, hkl, hkn, hbet⟩ := hgov
  rcases Nat.lt_trichotomy j1 k with h | h | h
  · exact ⟨k, kl, h, hk, hkl, hkn⟩
  · subst h
    rw [hkl] at hl1
    rw [Option.some.inj hl1] at hkn
    rw [hkn] at hn1
    exact absurd hn1 (by simp)
  · exact absurd (hbet j1 l1 o1 h hlt hl1 ho1).1 hne1

/-- Witness for C5: in a three-line play, the `apt` line of the task block
is changed, is rewritten to `ansible.builtin.apt`, and is governed by the
`- name:` opener above it. -/
theorem fix_fqcn_block_spec_witness :
    isTaskName "  apt: x".data = false ∧
      fqcnRewrite "  apt: x".data = some "  ansible.builtin.apt: x".data ∧
      fqcnGoverned (pySplitNl ("- name: t\n  apt: x\n  copy: y" : String).data)
        (fqcnGo (fun _ => true) false 0
          (pySplitNl ("- name: t\n  apt: x\n  copy: y" : String).data)) 1 :=
  (fix_fqcn_block_spec "- name: t\n  apt: x\n  copy: y").2.2.1 1 "  apt: x".data
    "  ansible.builtin.apt: x".data (by decide) (by decide) (by decide)
